/-
Verification of the shared in-memory store (`src/memory/shared_memory.py`) of the
Multi-Format Intake Agent repository.

Shallow embedding notes:
* Python dicts are modelled as association lists kept in insertion order (Python
  dicts iterate in insertion order; assignment to an existing key keeps its
  position, a new key is appended at the end).
* Timestamps: the code stores `datetime.utcnow().isoformat()` strings, compares
  them by parsing (`datetime.fromisoformat`) and sorts records by the raw string.
  For timestamps produced by a monotone clock, lexicographic order on the ISO
  strings coincides with chronological order, so a timestamp is modelled as
  `Option Nat`: `some t` is a parseable ISO string for instant `t`, `none` is a
  corrupt/unparseable string (which `fromisoformat` rejects).  The sort key
  `tsKey` places corrupt strings before all valid ones; theorems about eviction
  order only concern states whose timestamps are all valid, where this choice is
  irrelevant.
* Wall-clock reads (`datetime.utcnow()`) are passed in as an explicit `now : Nat`
  argument, measured in hours so that `timedelta(hours=h)` is just `h`.
* `metadata` / `extracted_data` hold `Dict[str, Any]` values that the store never
  inspects beyond key-wise `dict.update`; their values are modelled by the small
  opaque type `MVal`.
* The statistics estimator `_estimate_memory_usage` (floating point, string
  sizes) is outside every claim and is not modelled; the statistics fields the
  retention logic reads (`last_cleanup`) and writes (`total_entries`,
  `active_conversations`, `last_update`) are modelled faithfully.
-/
import Mathlib

namespace SharedMem

/-- Opaque value stored in `metadata` / `extracted_data` dictionaries
(`Dict[str, Any]` in the source; the store treats the values opaquely). -/
inductive MVal where
  | int (i : Int)
  | str (s : String)
deriving DecidableEq, Repr

/-- `models.schemas.ClassificationResult`: stored and returned wholesale by the
store, never inspected field-wise.  `confidence` (a Python float in [0,1]) is
modelled as a rational. -/
structure ClassificationResult where
  format : String
  intent : String
  confidence : Rat
  timestamp : String
  error : Option String := none
deriving DecidableEq, Repr

/-- `MemoryEntry` dataclass.  `agent_history = None` is rewritten to `[]` by
`__post_init__`, so the model defaults it to `[]`. -/
structure MemoryEntry where
  processing_id : String
  timestamp : Option Nat
  metadata : List (String × MVal)
  classification : Option ClassificationResult := none
  extracted_data : Option (List (String × MVal)) := none
  conversation_id : Option String := none
  agent_history : List String := []
deriving DecidableEq, Repr

/-- The `SharedMemory` object: entry table, conversation index, configuration
and the statistics dictionary fields that the code reads or writes.
`stats_last_update` is absent until the first `_update_stats` call, hence an
`Option`. -/
structure SharedMemory where
  memory : List (String × MemoryEntry)
  conversation_index : List (String × List String)
  max_entries : Nat
  cleanup_hours : Nat
  stats_total_entries : Nat
  stats_active_conversations : Nat
  stats_last_cleanup : Nat
  stats_last_update : Option Nat := none
deriving DecidableEq, Repr

/-- `SharedMemory.__init__(max_entries, cleanup_hours)` at instant `now`. -/
def mkSharedMemory (max_entries cleanup_hours now : Nat) : SharedMemory :=
  { memory := []
    conversation_index := []
    max_entries := max_entries
    cleanup_hours := cleanup_hours
    stats_total_entries := 0
    stats_active_conversations := 0
    stats_last_cleanup := now }

/-! ### Python dict primitives over insertion-ordered association lists -/

/-- `d.get(k)` / `d[k]` lookup. -/
def dfind (l : List (String × α)) (k : String) : Option α :=
  (l.find? (fun q => q.1 == k)).map (·.2)

/-- `k in d`. -/
def dmem (l : List (String × α)) (k : String) : Bool :=
  (dfind l k).isSome

/-- In-place mutation of the value stored under an existing key
(`self._memory[pid].field = ...`). -/
def dmod (l : List (String × α)) (k : String) (f : α → α) : List (String × α) :=
  l.map (fun q => if q.1 == k then (q.1, f q.2) else q)

/-- `d[k] = v`: overwrite in place if the key exists, else append. -/
def dset (l : List (String × α)) (k : String) (v : α) : List (String × α) :=
  if dmem l k then dmod l k (fun _ => v)
  else l ++ [(k, v)]

/-- Keep the pairs whose key satisfies `P`. -/
def kfilter (l : List (String × α)) (P : String → Bool) : List (String × α) :=
  l.filter (fun q => P q.1)

/-- `del d[k]` (keys are unique in a Python dict, so deleting the key is
filtering it out). -/
def derase (l : List (String × α)) (k : String) : List (String × α) :=
  kfilter l (fun s => !(s == k))

/-- Python `dict.update`: iterate the new dict in order, assigning each pair. -/
def dictUpdate (m nw : List (String × α)) : List (String × α) :=
  nw.foldl (fun acc q => dset acc q.1 q.2) m

/-! ### Timestamp ordering -/

/-- Sort key for the raw timestamp string: corrupt strings are given a fixed
position before all valid ones (the code sorts raw strings; see header note). -/
def tsKey : Option Nat → Nat
  | none => 0
  | some t => t + 1

/-- Order used by `_cleanup_old_entries` (`sorted(..., key=lambda x: x[1].timestamp)`). -/
def tsLE (a b : String × MemoryEntry) : Prop :=
  tsKey a.2.timestamp ≤ tsKey b.2.timestamp

instance : DecidableRel tsLE := fun a b => Nat.decLe _ _

instance : IsTotal (String × MemoryEntry) tsLE := ⟨fun a b => Nat.le_total _ _⟩

instance : IsTrans (String × MemoryEntry) tsLE := ⟨fun _ _ _ => Nat.le_trans⟩

/-- Order used by `get_conversation_history` (`history.sort(key=... "timestamp")`). -/
def tsLEe (a b : MemoryEntry) : Prop :=
  tsKey a.timestamp ≤ tsKey b.timestamp

instance : DecidableRel tsLEe := fun a b => Nat.decLe _ _

instance : IsTotal MemoryEntry tsLEe := ⟨fun a b => Nat.le_total _ _⟩

instance : IsTrans MemoryEntry tsLEe := ⟨fun _ _ _ => Nat.le_trans⟩

/-! ### Operations -/

/-- `_update_stats` (writes the derived counters and `last_update`;
does not touch `last_cleanup`). -/
def updateStats (st : SharedMemory) (now : Nat) : SharedMemory :=
  { st with
    stats_total_entries := st.memory.length
    stats_active_conversations := st.conversation_index.length
    stats_last_update := some now }

/-- `clear_memory(processing_id)`.  The guard `if entry.conversation_id:` is a
Python truthiness test: it is false both for `None` and for the empty string,
so a record whose conversation id is `""` is deleted from the entry table
without any conversation-index maintenance.  When the entry carries a
non-empty `conversation_id` whose bucket would empty while the conversation id
is not a key of the index, the Python `del self._conversation_index[...]`
raises `KeyError`, the handler returns `False`, and no state was mutated up to
that point (the default `[]` from `.get` is a fresh list). -/
def clear_memory (st : SharedMemory) (now : Nat) (pid : String) :
    Bool × SharedMemory :=
  match dfind st.memory pid with
  | some entry =>
    match entry.conversation_id with
    | some cid =>
      if cid == "" then
        (true, updateStats { st with memory := derase st.memory pid } now)
      else
      let convList := ((dfind st.conversation_index cid).getD []).erase pid
      if convList.isEmpty then
        if dmem st.conversation_index cid then
          (true, updateStats
            { st with
              conversation_index := derase st.conversation_index cid
              memory := derase st.memory pid } now)
        else
          (false, st)
      else
        (true, updateStats
          { st with
            conversation_index := dset st.conversation_index cid convList
            memory := derase st.memory pid } now)
    | none =>
      (true, updateStats { st with memory := derase st.memory pid } now)
  | none => (false, st)

/-- `_cleanup_old_entries`: sort by the timestamp and delete the oldest
`len - max_entries + 100` entries through `clear_memory`. -/
def cleanupOldEntries (st : SharedMemory) (now : Nat) : SharedMemory :=
  if st.memory.length ≤ st.max_entries then st
  else
    let sortedEntries := st.memory.insertionSort tsLE
    let entriesToRemove := st.memory.length - st.max_entries + 100
    (sortedEntries.take (min entriesToRemove sortedEntries.length)).foldl
      (fun acc q => (clear_memory acc now q.1).2) st

/-- Expiry test of `_cleanup_expired_entries`: `entry_time < now - cleanup_hours`
over exact datetime arithmetic; an unparseable timestamp is treated as expired. -/
def isExpired (cleanup_hours now : Nat) : Option Nat → Bool
  | some t => decide (t + cleanup_hours < now)
  | none => true

/-- `_cleanup_expired_entries`: sweep everything expired, then update the
`last_cleanup` stamp unconditionally. -/
def cleanupExpiredEntries (st : SharedMemory) (now : Nat) : SharedMemory :=
  let expired :=
    (st.memory.filter (fun q => isExpired st.cleanup_hours now q.2.timestamp)).map (·.1)
  let st := expired.foldl (fun acc pid => (clear_memory acc now pid).2) st
  { st with stats_last_cleanup := now }

/-- `_cleanup_if_needed`: capacity trigger (count read before cleanup), then the
age trigger `utcnow - last_cleanup > timedelta(hours=cleanup_hours)` (the clock
is monotone so the comparison is `last_cleanup + cleanup_hours < now`). -/
def cleanupIfNeeded (st : SharedMemory) (now : Nat) : SharedMemory :=
  let st1 := if st.memory.length > st.max_entries then cleanupOldEntries st now else st
  if st1.stats_last_cleanup + st1.cleanup_hours < now then
    cleanupExpiredEntries st1 now
  else st1

/-- `store_metadata`: create with the given map, or `dict.update` merge into the
existing entry; the only write operation that calls `_cleanup_if_needed`. -/
def store_metadata (st : SharedMemory) (now : Nat) (pid : String)
    (md : List (String × MVal)) : Bool × SharedMemory :=
  let st1 :=
    if dmem st.memory pid then
      { st with memory := dmod st.memory pid (fun e =>
          { e with
            metadata := dictUpdate e.metadata md
            agent_history := e.agent_history ++ ["metadata_updated"] }) }
    else
      { st with memory := st.memory ++ [(pid,
          { processing_id := pid
            timestamp := some now
            metadata := md
            agent_history := ["metadata_stored"] })] }
  (true, cleanupIfNeeded (updateStats st1 now) now)

/-- `store_classification`: wholesale replace; no retention call. -/
def store_classification (st : SharedMemory) (now : Nat) (pid : String)
    (c : ClassificationResult) : Bool × SharedMemory :=
  let st1 :=
    if dmem st.memory pid then
      { st with memory := dmod st.memory pid (fun e =>
          { e with
            classification := some c
            agent_history := e.agent_history ++ ["classification_stored"] }) }
    else
      { st with memory := st.memory ++ [(pid,
          { processing_id := pid
            timestamp := some now
            metadata := []
            classification := some c
            agent_history := ["classification_stored"] })] }
  (true, updateStats st1 now)

/-- `store_extracted_data`: wholesale replace; no retention call. -/
def store_extracted_data (st : SharedMemory) (now : Nat) (pid : String)
    (xd : List (String × MVal)) : Bool × SharedMemory :=
  let st1 :=
    if dmem st.memory pid then
      { st with memory := dmod st.memory pid (fun e =>
          { e with
            extracted_data := some xd
            agent_history := e.agent_history ++ ["data_extracted"] }) }
    else
      { st with memory := st.memory ++ [(pid,
          { processing_id := pid
            timestamp := some now
            metadata := []
            extracted_data := some xd
            agent_history := ["data_extracted"] })] }
  (true, updateStats st1 now)

/-- `store_conversation_id`: set the field, ensure the bucket exists, append the
pid to the bucket if absent; no retention call.  The index manipulation happens
after the entry-table update, which leaves the index untouched, so the index
reads are taken from the incoming state. -/
def store_conversation_id (st : SharedMemory) (now : Nat) (pid cid : String) :
    Bool × SharedMemory :=
  let mem1 :=
    if dmem st.memory pid then
      dmod st.memory pid (fun e =>
        { e with
          conversation_id := some cid
          agent_history := e.agent_history ++ ["conversation_id_stored"] })
    else
      st.memory ++ [(pid,
        { processing_id := pid
          timestamp := some now
          metadata := []
          conversation_id := some cid
          agent_history := ["conversation_id_stored"] })]
  let idx1 :=
    if dmem st.conversation_index cid then st.conversation_index
    else st.conversation_index ++ [(cid, [])]
  let bucket := (dfind idx1 cid).getD []
  let idx2 :=
    if bucket.contains pid then idx1
    else dset idx1 cid (bucket ++ [pid])
  (true, updateStats { st with memory := mem1, conversation_index := idx2 } now)

/-- `get_memory`: the complete entry (`_serialize_entry` re-presents the entry
as a dict one-to-one; the model returns the entry itself). -/
def get_memory (st : SharedMemory) (pid : String) : Option MemoryEntry :=
  dfind st.memory pid

/-- `get_metadata`: the metadata dict, or absent when the id is unknown. -/
def get_metadata (st : SharedMemory) (pid : String) : Option (List (String × MVal)) :=
  (dfind st.memory pid).map (·.metadata)

/-- `get_conversation_history`: resolve the bucket's pids against the entry
table, dropping unknown ids, then sort by timestamp. -/
def get_conversation_history (st : SharedMemory) (cid : String) : List MemoryEntry :=
  let pids := (dfind st.conversation_index cid).getD []
  let history := pids.filterMap (fun p => dfind st.memory p)
  history.insertionSort tsLEe

/-- `clear_all_memory`. -/
def clear_all_memory (st : SharedMemory) (now : Nat) : Bool × SharedMemory :=
  (true, updateStats { st with memory := [], conversation_index := [] } now)

/-! ### Well-formedness of a store state

Every state reachable through the public operations satisfies `WF`; the claim
theorems take it as a hypothesis where internal deletions must succeed. -/

/-- Structural invariant of a store state: unique keys, non-empty duplicate-free
conversation buckets whose members are live records pointing back at the bucket,
and every record's conversation id registered in the index with the record a
member of its bucket. -/
structure WF (st : SharedMemory) : Prop where
  memNodup : (st.memory.map Prod.fst).Nodup
  idxNodup : (st.conversation_index.map Prod.fst).Nodup
  bucketNe : ∀ cb ∈ st.conversation_index, cb.2 ≠ []
  bucketNodup : ∀ cb ∈ st.conversation_index, cb.2.Nodup
  backward : ∀ cb ∈ st.conversation_index, ∀ p ∈ cb.2,
    ∃ e, dfind st.memory p = some e ∧ e.conversation_id = some cb.1
  forward : ∀ pe ∈ st.memory, ∀ c, pe.2.conversation_id = some c →
    ∃ b, dfind st.conversation_index c = some b ∧ pe.1 ∈ b

/-- Executable version of `WF`, used to discharge it on concrete states. -/
def WFb (st : SharedMemory) : Bool :=
  decide (st.memory.map Prod.fst).Nodup &&
  decide (st.conversation_index.map Prod.fst).Nodup &&
  st.conversation_index.all (fun cb =>
    !cb.2.isEmpty && decide cb.2.Nodup &&
    cb.2.all (fun p =>
      ((dfind st.memory p).map (fun e => e.conversation_id == some cb.1)).getD false)) &&
  st.memory.all (fun pe =>
    (pe.2.conversation_id.map (fun c =>
      ((dfind st.conversation_index c).getD []).contains pe.1)).getD true)

/-! ### Operation sequences used by the invariant claims -/

/-- The operations of the index-consistency claim: `store_conversation_id` and
`clear_memory`. -/
inductive ConvOp where
  | put (pid cid : String)
  | del (pid : String)
deriving DecidableEq, Repr

/-- Apply one `ConvOp` (timestamps are irrelevant to the index claims, so a
single instant is used). -/
def applyConvOp (st : SharedMemory) (now : Nat) : ConvOp → SharedMemory
  | ConvOp.put pid cid => (store_conversation_id st now pid cid).2
  | ConvOp.del pid => (clear_memory st now pid).2

/-- Run a sequence of conversation/delete operations. -/
def runConvOps (st : SharedMemory) (now : Nat) (ops : List ConvOp) : SharedMemory :=
  ops.foldl (fun acc op => applyConvOp acc now op) st

/-- `store_conversation_id st pid cid` does not reassign a different
conversation id: the record is absent, has no conversation id yet, or already
has this one. -/
def convCompatible (st : SharedMemory) (pid cid : String) : Bool :=
  match dfind st.memory pid with
  | some e => e.conversation_id == none || e.conversation_id == some cid
  | none => true

/-- A run of `ConvOp`s never moves a record between conversations and never
uses the empty string — falsy in Python, so skipped by `clear_memory`'s index
maintenance — as a conversation id. -/
def okConvOps (st : SharedMemory) (now : Nat) : List ConvOp → Bool
  | [] => true
  | op :: rest =>
    (match op with
     | ConvOp.put pid cid => convCompatible st pid cid && !(cid == "")
     | ConvOp.del _ => true) && okConvOps (applyConvOp st now op) now rest

/-- One write operation of the uniqueness/history claim, with its instant. -/
inductive WriteOp where
  | putMeta (md : List (String × MVal))
  | putCls (c : ClassificationResult)
  | putExtr (xd : List (String × MVal))
  | putConv (cid : String)
deriving DecidableEq, Repr

/-- Apply one timed write to a fixed processing id. -/
def applyWrite (st : SharedMemory) (pid : String) : Nat × WriteOp → Bool × SharedMemory
  | (now, WriteOp.putMeta md) => store_metadata st now pid md
  | (now, WriteOp.putCls c) => store_classification st now pid c
  | (now, WriteOp.putExtr xd) => store_extracted_data st now pid xd
  | (now, WriteOp.putConv cid) => store_conversation_id st now pid cid

/-- Run a sequence of timed writes against one processing id. -/
def runWrites (st : SharedMemory) (pid : String) (ws : List (Nat × WriteOp)) : SharedMemory :=
  ws.foldl (fun acc w => (applyWrite acc pid w).2) st

/-- The `agent_history` of a record, `[]` when the record is absent. -/
def histOf (st : SharedMemory) (pid : String) : List String :=
  ((dfind st.memory pid).map (·.agent_history)).getD []

/-! ### Concrete states used by counterexamples and witnesses -/

/-- A sample classification result. -/
def exCls : ClassificationResult :=
  { format := "json", intent := "order", confidence := 1,
    timestamp := "2024-01-15T10:30:00" }

/-- Two classification writes with distinct ids against a store configured with
`max_entries = 1`: `store_classification` never invokes the retention manager,
so the table ends with 2 > 1 entries. -/
def c1cexSt : SharedMemory :=
  (store_classification
    (store_classification (mkSharedMemory 1 24 0) 0 "a" exCls).2 0 "b" exCls).2

/-- Assign conversation "A", then "B", to the same id and delete the record:
the id stays behind in bucket "A" of the index. -/
def c2cexSt : SharedMemory :=
  (clear_memory
    (store_conversation_id
      (store_conversation_id (mkSharedMemory 1000 24 0) 0 "p" "A").2
      0 "p" "B").2
    0 "p").2

/-- A store with `max_entries = 1` holding one record; a first `store_metadata`
for the fresh id "new" pushes the size to 2 and the capacity eviction
(buffer 100) then removes every entry, including the one just written. -/
def c3cexSt : SharedMemory :=
  (store_metadata
    (store_classification (mkSharedMemory 1 24 0) 0 "old" exCls).2
    0 "new" [("a", MVal.int 1)]).2

/-- Three records (created at instants 0, 1, 2) in a store configured with
`max_entries = 2`: over capacity. -/
def overCapSt : SharedMemory :=
  (store_classification
    (store_classification
      (store_classification (mkSharedMemory 2 24 0) 0 "a" exCls).2
      1 "b" exCls).2
    2 "c" exCls).2

/-- One record created at instant 0 in a store whose age limit is 5 hours. -/
def c5St : SharedMemory :=
  (store_metadata (mkSharedMemory 1000 5 0) 0 "a" []).2

/-- Register a record under the empty conversation id, then delete it:
`clear_memory`'s truthiness guard skips the index maintenance, leaving the id
dangling in the `""` bucket. -/
def c8cexSt : SharedMemory :=
  (clear_memory
    (store_conversation_id (mkSharedMemory 1000 24 0) 0 "p" "").2 0 "p").2

/-- The forward half of the index invariant on its own: every record carrying a
conversation id is a member of that conversation's bucket.  It is all
`clear_memory` needs in order never to hit the `KeyError` branch, and — unlike
full `WF` — it survives deletions of records whose conversation id is the
(falsy) empty string. -/
def Fwd (st : SharedMemory) : Prop :=
  ∀ pe ∈ st.memory, ∀ c, pe.2.conversation_id = some c →
    ∃ b, dfind st.conversation_index c = some b ∧ pe.1 ∈ b

/-- No record carries the empty string as its conversation id.  Python's
truthiness test in `clear_memory` treats `""` like `None`, so the index
consistency invariant only survives on stores that never use it. -/
def noBlankCid (st : SharedMemory) : Prop :=
  ∀ pe ∈ st.memory, ¬ pe.2.conversation_id = some ""


/-! ### Lookup lemmas for the dict primitives -/

theorem dfind_nil (k : String) : dfind ([] : List (String × α)) k = none := rfl

theorem dfind_cons (q : String × α) (l : List (String × α)) (k : String) :
    dfind (q :: l) k = if q.1 == k then some q.2 else dfind l k := by
  simp only [dfind, List.find?]
  cases h : q.1 == k <;> simp

theorem dmem_eq_false_iff {l : List (String × α)} {k : String} :
    dmem l k = false ↔ dfind l k = none := by
  rw [dmem]
  cases dfind l k <;> simp

theorem dmem_eq_true_iff {l : List (String × α)} {k : String} :
    dmem l k = true ↔ ∃ v, dfind l k = some v := by
  rw [dmem]
  cases dfind l k <;> simp

theorem dfind_mem {l : List (String × α)} {k : String} {v : α}
    (h : dfind l k = some v) : (k, v) ∈ l := by
  induction l with
  | nil => simp [dfind] at h
  | cons q l ih =>
    rw [dfind_cons] at h
    cases hq : q.1 == k
    · rw [hq, if_neg Bool.false_ne_true] at h
      exact List.mem_cons_of_mem _ (ih h)
    · rw [hq, if_pos rfl] at h
      have hk : q.1 = k := by simpa using hq
      have hv : q.2 = v := by simpa using h
      have : (k, v) = q := by cases q; simp_all
      rw [this]
      exact List.mem_cons_self _ _

theorem dfind_eq_none {l : List (String × α)} {k : String} :
    dfind l k = none ↔ ∀ q ∈ l, ¬ q.1 = k := by
  induction l with
  | nil => simp [dfind]
  | cons q l ih =>
    rw [dfind_cons]
    cases hq : q.1 == k
    · have hne : ¬ q.1 = k := by simpa using hq
      simp [ih, hne]
    · have hk : q.1 = k := by simpa using hq
      simp only [if_pos rfl]
      constructor
      · intro h
        simp at h
      · intro hall
        exact absurd hk (hall q (List.mem_cons_self _ _))

theorem keys_inj {l : List (String × α)} (h : (l.map Prod.fst).Nodup)
    {a b : String × α} (ha : a ∈ l) (hb : b ∈ l) (hk : a.1 = b.1) : a = b :=
  List.inj_on_of_nodup_map h ha hb hk

theorem dfind_eq_some_of_mem {l : List (String × α)} (h : (l.map Prod.fst).Nodup)
    {k : String} {v : α} (hm : (k, v) ∈ l) : dfind l k = some v := by
  cases hf : dfind l k with
  | none =>
    rw [dfind_eq_none] at hf
    exact absurd rfl (hf (k, v) hm)
  | some w =>
    have hmem := dfind_mem hf
    have heq := keys_inj h hmem hm rfl
    rw [Prod.mk.injEq] at heq
    exact congrArg some heq.2

theorem dfind_append (l1 l2 : List (String × α)) (k : String) :
    dfind (l1 ++ l2) k = (dfind l1 k).or (dfind l2 k) := by
  induction l1 with
  | nil => simp [dfind_nil, Option.or]
  | cons q l ih =>
    rw [List.cons_append, dfind_cons, dfind_cons]
    cases hq : q.1 == k <;> simp [ih, Option.or]

theorem kfilter_cons (q : String × α) (l : List (String × α)) (P : String → Bool) :
    kfilter (q :: l) P = if P q.1 then q :: kfilter l P else kfilter l P := by
  simp [kfilter, List.filter_cons]

theorem dfind_kfilter (l : List (String × α)) (P : String → Bool) (k : String) :
    dfind (kfilter l P) k = if P k then dfind l k else none := by
  induction l with
  | nil => cases hP : P k <;> simp [kfilter, dfind_nil]
  | cons q l ih =>
    rw [kfilter_cons]
    by_cases hq : q.1 = k
    · subst hq
      cases hp : P q.1 <;> simp [hp, dfind_cons, ih]
    · cases hp : P q.1 <;> simp [hp, dfind_cons, ih, hq]

theorem dfind_derase_self (l : List (String × α)) (k : String) :
    dfind (derase l k) k = none := by
  rw [derase, dfind_kfilter]
  simp

theorem dfind_derase_ne (l : List (String × α)) {k k' : String} (h : ¬ k' = k) :
    dfind (derase l k) k' = dfind l k' := by
  rw [derase, dfind_kfilter]
  simp [h]

theorem mem_derase {l : List (String × α)} {k : String} {q : String × α} :
    q ∈ derase l k ↔ q ∈ l ∧ ¬ q.1 = k := by
  rw [derase, kfilter, List.mem_filter]
  simp

theorem derase_sublist (l : List (String × α)) (k : String) :
    (derase l k).Sublist l :=
  List.filter_sublist l

theorem keys_derase_sublist (l : List (String × α)) (k : String) :
    ((derase l k).map Prod.fst).Sublist (l.map Prod.fst) :=
  (derase_sublist l k).map Prod.fst

theorem dmod_cons (q : String × α) (l : List (String × α)) (k : String) (f : α → α) :
    dmod (q :: l) k f = (if q.1 == k then (q.1, f q.2) else q) :: dmod l k f := rfl

theorem dfind_dmod_self (l : List (String × α)) (k : String) (f : α → α) :
    dfind (dmod l k f) k = (dfind l k).map f := by
  induction l with
  | nil => rfl
  | cons q l ih =>
    rw [dmod_cons]
    by_cases hq : q.1 = k <;> simp [dfind_cons, hq, ih]

theorem dfind_dmod_ne (l : List (String × α)) {k k' : String} (f : α → α) (h : ¬ k' = k) :
    dfind (dmod l k f) k' = dfind l k' := by
  induction l with
  | nil => rfl
  | cons q l ih =>
    rw [dmod_cons]
    have hkk' : ¬ k = k' := fun he => h he.symm
    by_cases hq : q.1 = k
    · simp [dfind_cons, hq, hkk', ih]
    · by_cases hq' : q.1 = k' <;> simp [dfind_cons, hq, hq', h, ih]

theorem mem_dmod_elim {l : List (String × α)} {k : String} {f : α → α} {q : String × α}
    (h : q ∈ dmod l k f) :
    (q ∈ l ∧ ¬ q.1 = k) ∨ ∃ v, (k, v) ∈ l ∧ q = (k, f v) := by
  rw [dmod] at h
  rcases List.mem_map.mp h with ⟨w, hw, he⟩
  by_cases hq : w.1 = k
  · right
    refine ⟨w.2, ?_, ?_⟩
    · rw [← hq]
      exact hw
    · rw [← he]
      simp [hq]
  · left
    have hw' : (if (w.1 == k) then (w.1, f w.2) else w) = w :=
      if_neg (by simp [hq])
    rw [← he, hw']
    exact ⟨hw, hq⟩

theorem keys_dmod (l : List (String × α)) (k : String) (f : α → α) :
    (dmod l k f).map Prod.fst = l.map Prod.fst := by
  induction l with
  | nil => rfl
  | cons q l ih =>
    rw [dmod_cons]
    by_cases hq : q.1 = k <;> simp [hq, ih]

theorem dfind_dset_self (l : List (String × α)) (k : String) (v : α) :
    dfind (dset l k v) k = some v := by
  rw [dset]
  by_cases hm : dmem l k = true
  · rw [if_pos hm, dfind_dmod_self]
    rcases dmem_eq_true_iff.mp hm with ⟨w, hw⟩
    rw [hw]
    rfl
  · have hm' : dmem l k = false := by simpa using hm
    rw [if_neg hm, dfind_append, dmem_eq_false_iff.mp hm']
    simp [dfind_cons, Option.or]

theorem dfind_dset_ne (l : List (String × α)) {k k' : String} (v : α) (h : ¬ k' = k) :
    dfind (dset l k v) k' = dfind l k' := by
  rw [dset]
  by_cases hm : dmem l k = true
  · rw [if_pos hm]
    exact dfind_dmod_ne l _ h
  · rw [if_neg hm, dfind_append, dfind_cons]
    have : ¬ k = k' := fun he => h he.symm
    rw [if_neg (by simpa using this), dfind_nil]
    cases dfind l k' <;> simp [Option.or]

theorem mem_dset_elim {l : List (String × α)} {k : String} {v : α} {q : String × α}
    (h : q ∈ dset l k v) : q = (k, v) ∨ (q ∈ l ∧ ¬ q.1 = k) := by
  rw [dset] at h
  by_cases hm : dmem l k = true
  · rw [if_pos hm] at h
    rcases mem_dmod_elim h with h' | ⟨w, _, he⟩
    · right
      exact h'
    · left
      exact he
  · rw [if_neg hm] at h
    have hm' : dfind l k = none := dmem_eq_false_iff.mp (by simpa using hm)
    rcases List.mem_append.mp h with h' | h'
    · right
      refine ⟨h', fun he => ?_⟩
      rw [dfind_eq_none] at hm'
      exact hm' q h' he
    · left
      simpa using h'

theorem keys_dset_of_mem {l : List (String × α)} {k : String} (v : α)
    (h : dmem l k = true) : (dset l k v).map Prod.fst = l.map Prod.fst := by
  rw [dset, if_pos h]
  exact keys_dmod l k _


theorem kfilter_eq_self {l : List (String × α)} {P : String → Bool}
    (h : ∀ q ∈ l, P q.1 = true) : kfilter l P = l :=
  List.filter_eq_self.mpr (fun a ha => h a ha)

theorem updateStats_memory (st : SharedMemory) (now : Nat) :
    (updateStats st now).memory = st.memory := rfl

theorem updateStats_index (st : SharedMemory) (now : Nat) :
    (updateStats st now).conversation_index = st.conversation_index := rfl

/-- Turn the executable well-formedness check into the proof-level invariant. -/
theorem wf_of_wfB {st : SharedMemory} (h : WFb st = true) : WF st := by
  rw [WFb] at h
  simp only [Bool.and_eq_true, decide_eq_true_eq, List.all_eq_true] at h
  obtain ⟨⟨⟨h1, h2⟩, h3⟩, h4⟩ := h
  refine ⟨h1, h2, ?_, ?_, ?_, ?_⟩
  · intro cb hcb
    have h3' := h3 cb hcb
    simp only [Bool.and_eq_true, decide_eq_true_eq] at h3'
    intro he
    rw [he] at h3'
    simp at h3'
  · intro cb hcb
    have h3' := h3 cb hcb
    simp only [Bool.and_eq_true, decide_eq_true_eq] at h3'
    exact h3'.1.2
  · intro cb hcb p hp
    have h3' := h3 cb hcb
    simp only [Bool.and_eq_true, decide_eq_true_eq, List.all_eq_true] at h3'
    have hm := h3'.2 p hp
    cases hfp : dfind st.memory p with
    | none =>
      rw [hfp] at hm
      simp at hm
    | some e =>
      rw [hfp] at hm
      refine ⟨e, rfl, ?_⟩
      simpa using hm
  · intro pe hpe c hcx
    have h4' := h4 pe hpe
    rw [hcx] at h4'
    simp only [Option.map_some', Option.getD_some] at h4'
    cases hfc : dfind st.conversation_index c with
    | none =>
      rw [hfc] at h4'
      simp at h4'
    | some b =>
      rw [hfc] at h4'
      refine ⟨b, rfl, ?_⟩
      simpa using h4'

/-- Full specification of `clear_memory` on a well-formed state, for an id
whose record does not carry the (falsy) empty string as conversation id: the
result of the call, the effect on the entry table, preservation of
well-formedness and of the configuration and last-sweep fields. -/
theorem clear_spec (st : SharedMemory) (hWF : WF st) (now : Nat) (p : String)
    (hnb : ∀ e, dfind st.memory p = some e → ¬ e.conversation_id = some "") :
    (clear_memory st now p).2.memory = derase st.memory p ∧
    (clear_memory st now p).1 = (dfind st.memory p).isSome ∧
    WF (clear_memory st now p).2 ∧
    (clear_memory st now p).2.max_entries = st.max_entries ∧
    (clear_memory st now p).2.cleanup_hours = st.cleanup_hours ∧
    (clear_memory st now p).2.stats_last_cleanup = st.stats_last_cleanup := by
  have memN := hWF.memNodup
  cases hf : dfind st.memory p with
  | none =>
    have hall := dfind_eq_none.mp hf
    have hme : derase st.memory p = st.memory := by
      rw [derase]
      apply kfilter_eq_self
      intro q hq
      simp [hall q hq]
    simp only [clear_memory, hf]
    refine ⟨hme.symm, ?_, hWF, ?_, ?_, ?_⟩ <;> trivial
  | some e =>
    have hpe : (p, e) ∈ st.memory := dfind_mem hf
    -- common facts about the entry table after erasing `p`
    have hmemN' : ((derase st.memory p).map Prod.fst).Nodup :=
      (keys_derase_sublist _ _).nodup memN
    have hfind' : ∀ p' : String, ¬ p' = p →
        dfind (derase st.memory p) p' = dfind st.memory p' :=
      fun p' hne => dfind_derase_ne _ hne
    cases hc : e.conversation_id with
    | none =>
      simp only [clear_memory, hf, hc]
      refine ⟨rfl, rfl, ?_, rfl, rfl, rfl⟩
      refine ⟨hmemN', hWF.idxNodup, ?_, ?_, ?_, ?_⟩
      · exact fun cb hcb => hWF.bucketNe cb hcb
      · exact fun cb hcb => hWF.bucketNodup cb hcb
      · intro cb hcb p' hp'
        obtain ⟨e', hfe', hce'⟩ := hWF.backward cb hcb p' hp'
        have hne : ¬ p' = p := by
          intro he
          rw [he, hf] at hfe'
          cases hfe'
          rw [hc] at hce'
          exact Option.noConfusion hce'
        exact ⟨e', by rw [updateStats_memory, hfind' p' hne]; exact hfe', hce'⟩
      · intro pe hpe' c hcx
        rw [updateStats_memory] at hpe'
        have hpem : pe ∈ st.memory := (mem_derase.mp hpe').1
        exact hWF.forward pe hpem c hcx
    | some cid =>
      obtain ⟨b, hb, hpb⟩ := hWF.forward (p, e) hpe cid hc
      have hcbmem : (cid, b) ∈ st.conversation_index := dfind_mem hb
      have hbnd : b.Nodup := hWF.bucketNodup (cid, b) hcbmem
      have hdm : dmem st.conversation_index cid = true := by
        rw [dmem, hb]
        rfl
      -- a member of any bucket other than p stays resolvable after erasing p
      have hback : ∀ cb ∈ st.conversation_index, ∀ p' ∈ cb.2, ¬ p' = p →
          ∃ e', dfind (derase st.memory p) p' = some e' ∧
            e'.conversation_id = some cb.1 := by
        intro cb hcb p' hp' hne
        obtain ⟨e', hfe', hce'⟩ := hWF.backward cb hcb p' hp'
        exact ⟨e', by rw [hfind' p' hne]; exact hfe', hce'⟩
      -- p is a member only of bucket cid
      have honly : ∀ cb ∈ st.conversation_index, p ∈ cb.2 → cb.1 = cid := by
        intro cb hcb hpcb
        obtain ⟨e', hfe', hce'⟩ := hWF.backward cb hcb p hpcb
        rw [hf] at hfe'
        cases hfe'
        rw [hc] at hce'
        exact (Option.some.inj hce').symm
      have hcne : ¬ ((cid == "") = true) := by
        simp only [beq_iff_eq]
        intro h
        exact hnb e hf (by rw [hc, h])
      simp only [clear_memory, hf, hc, hb, Option.getD_some]
      rw [if_neg hcne]
      cases hbe : (b.erase p).isEmpty
      · -- the bucket keeps other members: update it in place
        rw [if_neg Bool.false_ne_true]
        refine ⟨rfl, rfl, ?_, rfl, rfl, rfl⟩
        have hkeys : ((dset st.conversation_index cid (b.erase p)).map Prod.fst)
            = st.conversation_index.map Prod.fst := keys_dset_of_mem _ hdm
        refine ⟨hmemN', ?_, ?_, ?_, ?_, ?_⟩
        · rw [updateStats_index]
          rw [hkeys]
          exact hWF.idxNodup
        · intro cb hcb
          rw [updateStats_index] at hcb
          rcases mem_dset_elim hcb with hcb' | ⟨hcb', _⟩
          · rw [hcb']
            intro he
            have he' : b.erase p = [] := he
            rw [he'] at hbe
            simp at hbe
          · exact hWF.bucketNe cb hcb'
        · intro cb hcb
          rw [updateStats_index] at hcb
          rcases mem_dset_elim hcb with hcb' | ⟨hcb', _⟩
          · rw [hcb']
            exact hbnd.erase p
          · exact hWF.bucketNodup cb hcb'
        · intro cb hcb p' hp'
          rw [updateStats_index] at hcb
          rw [updateStats_memory]
          rcases mem_dset_elim hcb with hcb' | ⟨hcb', hne⟩
          · rw [hcb'] at hp' ⊢
            have hp'b : p' ≠ p ∧ p' ∈ b := (hbnd.mem_erase_iff).mp hp'
            exact hback (cid, b) hcbmem p' hp'b.2 hp'b.1
          · refine hback cb hcb' p' hp' ?_
            intro he
            rw [he] at hp'
            exact hne (honly cb hcb' hp')
        · intro pe hpe' c hcx
          rw [updateStats_memory] at hpe'
          rw [updateStats_index]
          obtain ⟨hpem, hpne⟩ := mem_derase.mp hpe'
          obtain ⟨b', hb', hpb'⟩ := hWF.forward pe hpem c hcx
          by_cases hcc : c = cid
          · subst hcc
            rw [hb] at hb'
            cases hb'
            refine ⟨b.erase p, dfind_dset_self _ _ _, ?_⟩
            exact (List.mem_erase_of_ne hpne).mpr hpb'
          · exact ⟨b', by rw [dfind_dset_ne _ _ hcc]; exact hb', hpb'⟩
      · -- the bucket empties: remove it from the index
        rw [if_pos rfl, if_pos hdm]
        refine ⟨rfl, rfl, ?_, rfl, rfl, rfl⟩
        have hbp : b = [p] := by
          have := List.eq_nil_iff_forall_not_mem.mp (List.isEmpty_iff.mp hbe)
          cases hb' : b with
          | nil =>
            rw [hb'] at hpb
            cases hpb
          | cons x xs =>
            rw [hb'] at hpb hbnd this
            have hx : x = p := by
              by_contra hx
              exact this x ((List.mem_erase_of_ne hx).mpr (List.mem_cons_self _ _))
            subst hx
            have hxs : xs = [] := by
              cases hxs : xs with
              | nil => rfl
              | cons y ys =>
                exfalso
                rw [hxs] at this hbnd
                by_cases hy : y = x
                · subst hy
                  simp at hbnd
                · refine this y ((List.mem_erase_of_ne hy).mpr ?_)
                  exact List.mem_cons_of_mem _ (List.mem_cons_self _ _)
            rw [hxs]
        refine ⟨hmemN', ?_, ?_, ?_, ?_, ?_⟩
        · rw [updateStats_index]
          exact (keys_derase_sublist _ _).nodup hWF.idxNodup
        · intro cb hcb
          rw [updateStats_index] at hcb
          exact hWF.bucketNe cb (mem_derase.mp hcb).1
        · intro cb hcb
          rw [updateStats_index] at hcb
          exact hWF.bucketNodup cb (mem_derase.mp hcb).1
        · intro cb hcb p' hp'
          rw [updateStats_index] at hcb
          rw [updateStats_memory]
          obtain ⟨hcb', hcne⟩ := mem_derase.mp hcb
          refine hback cb hcb' p' hp' ?_
          intro he
          rw [he] at hp'
          exact hcne (honly cb hcb' hp')
        · intro pe hpe' c hcx
          rw [updateStats_memory] at hpe'
          rw [updateStats_index]
          obtain ⟨hpem, hpne⟩ := mem_derase.mp hpe'
          obtain ⟨b', hb', hpb'⟩ := hWF.forward pe hpem c hcx
          by_cases hcc : c = cid
          · subst hcc
            rw [hb] at hb'
            cases hb'
            rw [hbp] at hpb'
            rcases List.mem_singleton.mp hpb' with he
            exact absurd he hpne
          · exact ⟨b', by rw [dfind_derase_ne _ hcc]; exact hb', hpb'⟩


/-- `WF` only depends on the entry table and the index. -/
theorem wf_of_fields {st st' : SharedMemory} (hm : st'.memory = st.memory)
    (hi : st'.conversation_index = st.conversation_index) (h : WF st) : WF st' := by
  refine ⟨?_, ?_, ?_, ?_, ?_, ?_⟩
  · rw [hm]
    exact h.memNodup
  · rw [hi]
    exact h.idxNodup
  · rw [hi]
    exact h.bucketNe
  · rw [hi]
    exact h.bucketNodup
  · rw [hi, hm]
    exact h.backward
  · rw [hm, hi]
    exact h.forward

theorem kfilter_congr {l : List (String × α)} {P Q : String → Bool}
    (h : ∀ s, P s = Q s) : kfilter l P = kfilter l Q := by
  rw [kfilter, kfilter]
  exact List.filter_congr (fun q _ => h q.1)

theorem kfilter_kfilter (l : List (String × α)) (P Q : String → Bool) :
    kfilter (kfilter l P) Q = kfilter l (fun s => P s && Q s) := by
  induction l with
  | nil => rfl
  | cons q l ih =>
    rw [kfilter_cons]
    cases hp : P q.1 <;> cases hq : Q q.1 <;>
      simp [kfilter_cons, hp, hq, ih]

theorem length_kfilter (l : List (String × α)) (P : String → Bool) :
    (kfilter l P).length = ((l.map Prod.fst).filter P).length := by
  induction l with
  | nil => rfl
  | cons q l ih =>
    rw [kfilter_cons, List.map_cons, List.filter_cons]
    cases hp : P q.1 <;> simp [hp, ih]

theorem mem_kfilter {l : List (String × α)} {P : String → Bool} {q : String × α} :
    q ∈ kfilter l P ↔ q ∈ l ∧ P q.1 = true := by
  rw [kfilter, List.mem_filter]

/-- Whatever branch it takes, `clear_memory` never grows the entry table. -/
theorem clear_memory_shrink (st : SharedMemory) (now : Nat) (p : String) :
    ((clear_memory st now p).2.memory).Sublist st.memory := by
  cases hf : dfind st.memory p with
  | none =>
    simp only [clear_memory, hf]
    exact List.Sublist.refl _
  | some e =>
    cases hc : e.conversation_id with
    | none =>
      simp only [clear_memory, hf, hc]
      exact derase_sublist _ _
    | some cid =>
      simp only [clear_memory, hf, hc]
      by_cases hcb : (cid == "") = true
      · rw [if_pos hcb]
        exact derase_sublist _ _
      · rw [if_neg hcb]
        by_cases hbe : (((dfind st.conversation_index cid).getD []).erase p).isEmpty = true
        · rw [if_pos hbe]
          by_cases hdm : dmem st.conversation_index cid = true
          · rw [if_pos hdm]
            exact derase_sublist _ _
          · rw [if_neg hdm]
        · rw [if_neg hbe]
          exact derase_sublist _ _

/-- Folding `clear_memory` never grows the entry table. -/
theorem clearFold_shrink (now : Nat) (L : List String) :
    ∀ st : SharedMemory,
      ((L.foldl (fun acc pid => (clear_memory acc now pid).2) st).memory).Sublist
        st.memory := by
  induction L with
  | nil => exact fun st => List.Sublist.refl _
  | cons p L ih =>
    intro st
    rw [List.foldl_cons]
    exact (ih (clear_memory st now p).2).trans (clear_memory_shrink st now p)

/-- Memory-side specification of `clear_memory` under the forward invariant
alone: the entry table is always the erasure, the call reports whether the id
was present, the forward invariant survives — whatever the conversation id of
the deleted record, the (falsy) empty string included — and the configuration
and sweep fields are untouched. -/
theorem clear_fwd_spec (st : SharedMemory) (hF : Fwd st) (now : Nat) (p : String) :
    (clear_memory st now p).2.memory = derase st.memory p ∧
    (clear_memory st now p).1 = (dfind st.memory p).isSome ∧
    Fwd (clear_memory st now p).2 ∧
    (clear_memory st now p).2.max_entries = st.max_entries ∧
    (clear_memory st now p).2.cleanup_hours = st.cleanup_hours ∧
    (clear_memory st now p).2.stats_last_cleanup = st.stats_last_cleanup := by
  cases hf : dfind st.memory p with
  | none =>
    have hall := dfind_eq_none.mp hf
    have hme : derase st.memory p = st.memory := by
      rw [derase]
      apply kfilter_eq_self
      intro q hq
      simp [hall q hq]
    simp only [clear_memory, hf]
    refine ⟨hme.symm, ?_, hF, ?_, ?_, ?_⟩ <;> trivial
  | some e =>
    have hpe : (p, e) ∈ st.memory := dfind_mem hf
    have hFde : ∀ pe ∈ derase st.memory p, ∀ c, pe.2.conversation_id = some c →
        ∃ b, dfind st.conversation_index c = some b ∧ pe.1 ∈ b := by
      intro pe hpe' c hc
      exact hF pe (mem_derase.mp hpe').1 c hc
    cases hc : e.conversation_id with
    | none =>
      simp only [clear_memory, hf, hc]
      refine ⟨rfl, rfl, ?_, rfl, rfl, rfl⟩
      intro pe hpe' c hc'
      rw [updateStats_memory] at hpe'
      exact hFde pe hpe' c hc'
    | some cid =>
      obtain ⟨b, hb, hpb⟩ := hF (p, e) hpe cid hc
      have hdm : dmem st.conversation_index cid = true := by
        rw [dmem, hb]
        rfl
      by_cases hcb : (cid == "") = true
      · simp only [clear_memory, hf, hc]
        rw [if_pos hcb]
        refine ⟨rfl, rfl, ?_, rfl, rfl, rfl⟩
        intro pe hpe' c hc'
        rw [updateStats_memory] at hpe'
        exact hFde pe hpe' c hc'
      · simp only [clear_memory, hf, hc, hb, Option.getD_some]
        rw [if_neg hcb]
        cases hbe : (b.erase p).isEmpty
        · rw [if_neg Bool.false_ne_true]
          refine ⟨rfl, rfl, ?_, rfl, rfl, rfl⟩
          intro pe hpe' c hc'
          rw [updateStats_memory] at hpe'
          rw [updateStats_index]
          obtain ⟨hpem, hpne⟩ := mem_derase.mp hpe'
          obtain ⟨b', hb', hpb'⟩ := hF pe hpem c hc'
          by_cases hcc : c = cid
          · subst hcc
            rw [hb] at hb'
            cases hb'
            refine ⟨b.erase p, dfind_dset_self _ _ _, ?_⟩
            exact (List.mem_erase_of_ne hpne).mpr hpb'
          · exact ⟨b', by rw [dfind_dset_ne _ _ hcc]; exact hb', hpb'⟩
        · rw [if_pos rfl, if_pos hdm]
          refine ⟨rfl, rfl, ?_, rfl, rfl, rfl⟩
          intro pe hpe' c hc'
          rw [updateStats_memory] at hpe'
          rw [updateStats_index]
          obtain ⟨hpem, hpne⟩ := mem_derase.mp hpe'
          obtain ⟨b', hb', hpb'⟩ := hF pe hpem c hc'
          by_cases hcc : c = cid
          · subst hcc
            rw [hb] at hb'
            cases hb'
            exfalso
            have hmm : pe.1 ∈ b.erase p := (List.mem_erase_of_ne hpne).mpr hpb'
            rw [List.isEmpty_iff.mp hbe] at hmm
            cases hmm
          · exact ⟨b', by rw [dfind_derase_ne _ hcc]; exact hb', hpb'⟩

/-- Folding `clear_memory` over a list of ids under the forward invariant
removes exactly the entries with those ids, keeps the invariant, and leaves
the configuration/sweep fields alone. -/
theorem clearFold_spec (now : Nat) (L : List String) :
    ∀ st : SharedMemory, Fwd st →
      (L.foldl (fun acc pid => (clear_memory acc now pid).2) st).memory
          = kfilter st.memory (fun s => !(decide (s ∈ L))) ∧
      Fwd (L.foldl (fun acc pid => (clear_memory acc now pid).2) st) ∧
      (L.foldl (fun acc pid => (clear_memory acc now pid).2) st).max_entries
          = st.max_entries ∧
      (L.foldl (fun acc pid => (clear_memory acc now pid).2) st).cleanup_hours
          = st.cleanup_hours ∧
      (L.foldl (fun acc pid => (clear_memory acc now pid).2) st).stats_last_cleanup
          = st.stats_last_cleanup := by
  induction L with
  | nil =>
    intro st hF
    refine ⟨?_, hF, rfl, rfl, rfl⟩
    rw [List.foldl_nil, kfilter_eq_self]
    intro q hq
    simp
  | cons p L ih =>
    intro st hF
    obtain ⟨cm, _, cF, cme, cch, clc⟩ := clear_fwd_spec st hF now p
    obtain ⟨im, iF, ime, ich, ilc⟩ := ih (clear_memory st now p).2 cF
    rw [List.foldl_cons]
    refine ⟨?_, iF, by rw [ime, cme], by rw [ich, cch], by rw [ilc, clc]⟩
    rw [im, cm, derase, kfilter_kfilter]
    apply kfilter_congr
    intro s
    by_cases h0 : s = p <;> by_cases h1 : s ∈ L <;>
      simp [h0, h1]


/-- The age sweep, under the forward invariant: the surviving table, the
unconditional update of the sweep stamp, and untouched configuration. -/
theorem cleanupExpired_spec (st : SharedMemory) (hWF : WF st) (now : Nat) :
    (cleanupExpiredEntries st now).memory
        = kfilter st.memory (fun s =>
            !(decide (s ∈ (st.memory.filter
                (fun q => isExpired st.cleanup_hours now q.2.timestamp)).map (·.1)))) ∧
    (cleanupExpiredEntries st now).stats_last_cleanup = now ∧
    (cleanupExpiredEntries st now).max_entries = st.max_entries ∧
    (cleanupExpiredEntries st now).cleanup_hours = st.cleanup_hours := by
  have hF : Fwd st := hWF.forward
  obtain ⟨im, _, ime, ich, _⟩ := clearFold_spec now
    ((st.memory.filter (fun q => isExpired st.cleanup_hours now q.2.timestamp)).map (·.1))
    st hF
  exact ⟨im, rfl, ime, ich⟩

/-- The age sweep never grows the entry table (no well-formedness needed). -/
theorem cleanupExpired_shrink (st : SharedMemory) (now : Nat) :
    ((cleanupExpiredEntries st now).memory).Sublist st.memory := by
  simp only [cleanupExpiredEntries]
  exact clearFold_shrink now _ st

/-- Counting survivors: dropping the members of a duplicate-free sublist `P`
from a duplicate-free list leaves `length - P.length` elements. -/
theorem length_filter_not_mem {S P : List String} (SN : S.Nodup) (PN : P.Nodup)
    (hsub : ∀ a ∈ P, a ∈ S) :
    (S.filter (fun s => !(decide (s ∈ P)))).length = S.length - P.length := by
  have hperm : (S.filter (fun s => decide (s ∈ P))).Perm P := by
    apply List.perm_of_nodup_nodup_toFinset_eq (SN.filter _) PN
    ext a
    simp only [List.mem_toFinset, List.mem_filter, decide_eq_true_eq]
    constructor
    · intro h
      exact h.2
    · intro h
      exact ⟨hsub a h, h⟩
  have hsplit := (List.filter_append_perm (fun s => decide (s ∈ P)) S).length_eq
  rw [List.length_append, hperm.length_eq] at hsplit
  omega

/-- In a list sorted by the timestamp order, every element of a `take` is no
newer than any element outside it. -/
theorem sorted_take_le {l : List (String × MemoryEntry)} (hs : List.Pairwise tsLE l)
    {k : Nat} {a b : String × MemoryEntry} (ha : a ∈ l.take k) (hb : b ∈ l)
    (hbk : b ∉ l.take k) : tsLE a b := by
  have hsplit := List.take_append_drop k l
  rw [← hsplit] at hs hb
  rcases List.mem_append.mp hb with h | h
  · exact absurd h hbk
  · exact (List.pairwise_append.mp hs).2.2 a ha b h

/-- Entry-table updates that keep every conversation id preserve `WF`. -/
theorem wf_dmod (st : SharedMemory) (hWF : WF st) (pid : String)
    (f : MemoryEntry → MemoryEntry)
    (hf : ∀ e, (f e).conversation_id = e.conversation_id) :
    WF { st with memory := dmod st.memory pid f } := by
  refine ⟨?_, hWF.idxNodup, hWF.bucketNe, hWF.bucketNodup, ?_, ?_⟩
  · show ((dmod st.memory pid f).map Prod.fst).Nodup
    rw [keys_dmod]
    exact hWF.memNodup
  · intro cb hcb p hp
    obtain ⟨e, hfe, hce⟩ := hWF.backward cb hcb p hp
    by_cases hpp : p = pid
    · subst hpp
      refine ⟨f e, ?_, ?_⟩
      · show dfind (dmod st.memory p f) p = some (f e)
        rw [dfind_dmod_self, hfe]
        rfl
      · rw [hf e]
        exact hce
    · refine ⟨e, ?_, hce⟩
      show dfind (dmod st.memory pid f) p = some e
      rw [dfind_dmod_ne _ _ hpp]
      exact hfe
  · intro pe hpe c hcx
    rcases mem_dmod_elim hpe with ⟨hpe', _⟩ | ⟨v, hv, hpe'⟩
    · exact hWF.forward pe hpe' c hcx
    · have hcx' : v.conversation_id = some c := by
        rw [hpe'] at hcx
        rw [← hf v]
        exact hcx
      have hres := hWF.forward (pid, v) hv c hcx'
      rw [hpe']
      exact hres

/-- Appending a fresh record that carries no conversation id preserves `WF`. -/
theorem wf_append (st : SharedMemory) (hWF : WF st) (pid : String) (e : MemoryEntry)
    (habs : dfind st.memory pid = none) (hce : e.conversation_id = none) :
    WF { st with memory := st.memory ++ [(pid, e)] } := by
  have hnk : pid ∉ st.memory.map Prod.fst := by
    intro hmem
    rcases List.mem_map.mp hmem with ⟨q, hq, hq1⟩
    exact (dfind_eq_none.mp habs) q hq hq1
  refine ⟨?_, hWF.idxNodup, hWF.bucketNe, hWF.bucketNodup, ?_, ?_⟩
  · show ((st.memory ++ [(pid, e)]).map Prod.fst).Nodup
    rw [List.map_append]
    refine List.Nodup.append hWF.memNodup (by simp) ?_
    intro a ha hb
    simp at hb
    rw [hb] at ha
    exact hnk ha
  · intro cb hcb p hp
    obtain ⟨e', hfe', hce'⟩ := hWF.backward cb hcb p hp
    refine ⟨e', ?_, hce'⟩
    show dfind (st.memory ++ [(pid, e)]) p = some e'
    rw [dfind_append, hfe']
    rfl
  · intro pe hpe c hcx
    rcases List.mem_append.mp hpe with h | h
    · exact hWF.forward pe h c hcx
    · have hpee : pe = (pid, e) := by simpa using h
      have hcx' : e.conversation_id = some c := by
        rw [hpee] at hcx
        exact hcx
      rw [hce] at hcx'
      cases hcx'


/-- Capacity eviction on a well-formed, over-capacity state: the resulting
size is `max_entries - 100` (`0` when `max_entries ≤ 100`), survivors come from
the original table, every evicted entry is no newer (by the sort key) than any
survivor, and the configuration is preserved. -/
theorem cleanupOld_spec (st : SharedMemory) (hWF : WF st) (now : Nat)
    (hover : st.max_entries < st.memory.length) :
    (cleanupOldEntries st now).memory.length = st.max_entries - 100 ∧
    (∀ pe ∈ (cleanupOldEntries st now).memory, pe ∈ st.memory) ∧
    (∀ pe ∈ (cleanupOldEntries st now).memory, ∀ qe ∈ st.memory,
        dfind (cleanupOldEntries st now).memory qe.1 = none → tsLE qe pe) ∧
    (cleanupOldEntries st now).max_entries = st.max_entries ∧
    (cleanupOldEntries st now).cleanup_hours = st.cleanup_hours ∧
    (cleanupOldEntries st now).stats_last_cleanup = st.stats_last_cleanup := by
  have hnle : ¬ st.memory.length ≤ st.max_entries := by omega
  have hfold : ∀ (l : List (String × MemoryEntry)) (s0 : SharedMemory),
      List.foldl (fun acc q => (clear_memory acc now q.1).2) s0 l
        = List.foldl (fun acc pid => (clear_memory acc now pid).2) s0
            (l.map Prod.fst) := by
    intro l
    induction l with
    | nil => exact fun s0 => rfl
    | cons q l ih =>
      intro s0
      rw [List.map_cons, List.foldl_cons, List.foldl_cons, ih]
  simp only [cleanupOldEntries]
  rw [if_neg hnle, hfold]
  set S := st.memory.insertionSort tsLE with hS
  set k := min (st.memory.length - st.max_entries + 100) S.length with hk
  set P := (S.take k).map Prod.fst with hP
  have hperm : S.Perm st.memory := List.perm_insertionSort tsLE st.memory
  have hkeysperm : (S.map Prod.fst).Perm (st.memory.map Prod.fst) :=
    hperm.map Prod.fst
  have hSN : (S.map Prod.fst).Nodup := hkeysperm.nodup_iff.mpr hWF.memNodup
  have hPtake : P = (S.map Prod.fst).take k := by
    rw [hP, List.map_take]
  have hPN : P.Nodup := by
    rw [hPtake]
    exact (List.take_sublist k (S.map Prod.fst)).nodup hSN
  have hPsub : ∀ a ∈ P, a ∈ st.memory.map Prod.fst := by
    intro a ha
    rw [hPtake] at ha
    exact hkeysperm.mem_iff.mp (List.mem_of_mem_take ha)
  have hPlen : P.length = k := by
    rw [hPtake, List.length_take]
    have hk' : k ≤ S.length := by
      rw [hk]
      exact Nat.min_le_right _ _
    rw [List.length_map]
    omega
  obtain ⟨fm, _, fme, fch, flc⟩ := clearFold_spec now P st hWF.forward
  refine ⟨?_, ?_, ?_, fme, fch, flc⟩
  · -- size after eviction
    rw [fm, length_kfilter,
      length_filter_not_mem hWF.memNodup hPN hPsub, hPlen, hk]
    have hSlen : S.length = st.memory.length := hperm.length_eq
    rw [hSlen, List.length_map]
    omega
  · intro pe hpe
    rw [fm] at hpe
    exact (mem_kfilter.mp hpe).1
  · intro pe hpe qe hqe hqnone
    rw [fm] at hpe hqnone
    obtain ⟨hpemem, hpeP⟩ := mem_kfilter.mp hpe
    have hpeP' : pe.1 ∉ P := by
      intro hc
      rw [decide_eq_true hc] at hpeP
      cases hpeP
    have hqeP : qe.1 ∈ P := by
      by_contra hqP
      rw [dfind_kfilter _ _ qe.1, if_pos (by simp [hqP])] at hqnone
      have hq2 : dfind st.memory qe.1 = some qe.2 :=
        dfind_eq_some_of_mem hWF.memNodup hqe
      rw [hq2] at hqnone
      cases hqnone
    have hq' : qe ∈ S.take k := by
      rw [hP] at hqeP
      rcases List.mem_map.mp hqeP with ⟨qe', hqe', hfst⟩
      have hqe'mem : qe' ∈ st.memory :=
        hperm.mem_iff.mp (List.mem_of_mem_take hqe')
      have heq : qe' = qe := keys_inj hWF.memNodup hqe'mem hqe hfst
      rw [← heq]
      exact hqe'
    have hpeS : pe ∈ S := hperm.mem_iff.mpr hpemem
    have hpnotk : pe ∉ S.take k := by
      intro hc
      exact hpeP' (by rw [hP]; exact List.mem_map_of_mem Prod.fst hc)
    exact sorted_take_le (List.sorted_insertionSort tsLE st.memory) hq' hpeS hpnotk

/-- After `_cleanup_if_needed` the table never exceeds `max_entries` (on a
well-formed state): either the capacity trigger just fired and reduced the
table to `max_entries - 100`, or the table already fit. -/
theorem cleanupIfNeeded_le (st : SharedMemory) (hWF : WF st) (now : Nat) :
    (cleanupIfNeeded st now).memory.length ≤ st.max_entries := by
  simp only [cleanupIfNeeded]
  by_cases hov : st.memory.length > st.max_entries
  · rw [if_pos hov]
    obtain ⟨hlen, _, _, _, _, _⟩ := cleanupOld_spec st hWF now hov
    by_cases hsw : (cleanupOldEntries st now).stats_last_cleanup
        + (cleanupOldEntries st now).cleanup_hours < now
    · rw [if_pos hsw]
      have hsub := (cleanupExpired_shrink (cleanupOldEntries st now) now).length_le
      omega
    · rw [if_neg hsw]
      omega
  · rw [if_neg hov]
    by_cases hsw : st.stats_last_cleanup + st.cleanup_hours < now
    · rw [if_pos hsw]
      have hsub := (cleanupExpired_shrink st now).length_le
      omega
    · rw [if_neg hsw]
      omega


/-- Both retention triggers are skipped when the table fits and the sweep is
not yet due. -/
theorem cleanupIfNeeded_noop (st : SharedMemory) (now : Nat)
    (hcap : st.memory.length ≤ st.max_entries)
    (hsw : ¬ st.stats_last_cleanup + st.cleanup_hours < now) :
    cleanupIfNeeded st now = st := by
  simp only [cleanupIfNeeded]
  have h1 : (if st.memory.length > st.max_entries then cleanupOldEntries st now else st)
      = st := if_neg (by omega)
  rw [h1, if_neg hsw]

theorem dictUpdate_cons (m : List (String × α)) (k : String) (v : α)
    (nw : List (String × α)) :
    dictUpdate m ((k, v) :: nw) = dictUpdate (dset m k v) nw := rfl

theorem dfind_dictUpdate_of_not_mem :
    ∀ (nw m : List (String × α)) {k : String},
      dfind nw k = none → dfind (dictUpdate m nw) k = dfind m k := by
  intro nw
  induction nw with
  | nil => intro m k _; rfl
  | cons q nw ih =>
    intro m k hk
    rw [dfind_cons] at hk
    cases hq : q.1 == k
    · rw [hq, if_neg Bool.false_ne_true] at hk
      have : dictUpdate m (q :: nw) = dictUpdate (dset m q.1 q.2) nw := rfl
      rw [this, ih _ hk, dfind_dset_ne]
      intro he
      rw [he] at hq
      simp at hq
    · rw [hq, if_pos rfl] at hk
      cases hk

theorem dfind_dictUpdate_of_mem :
    ∀ (nw m : List (String × α)), (nw.map Prod.fst).Nodup →
      ∀ {k : String} {v : α}, dfind nw k = some v →
        dfind (dictUpdate m nw) k = some v := by
  intro nw
  induction nw with
  | nil =>
    intro m _ k v hk
    cases hk
  | cons q nw ih =>
    intro m hnd k v hk
    rw [List.map_cons] at hnd
    have hnd' : (nw.map Prod.fst).Nodup := hnd.of_cons
    have hq1 : q.1 ∉ nw.map Prod.fst := (List.nodup_cons.mp hnd).1
    rw [dfind_cons] at hk
    have hupd : dictUpdate m (q :: nw) = dictUpdate (dset m q.1 q.2) nw := rfl
    cases hq : q.1 == k
    · rw [hq, if_neg Bool.false_ne_true] at hk
      rw [hupd]
      exact ih _ hnd' hk
    · rw [hq, if_pos rfl] at hk
      have hqk : q.1 = k := by simpa using hq
      have hnone : dfind nw k = none := by
        rw [dfind_eq_none]
        intro w hw he
        exact hq1 (by rw [hqk, ← he]; exact List.mem_map_of_mem Prod.fst hw)
      rw [hupd, dfind_dictUpdate_of_not_mem _ _ hnone, ← hqk, dfind_dset_self]
      rw [← hk]

/-- With the table within capacity and the sweep not due, `store_metadata` is
just the table update followed by the statistics refresh. -/
theorem store_metadata_eq (st : SharedMemory) (now : Nat) (pid : String)
    (md : List (String × MVal))
    (hcap : st.memory.length + 1 ≤ st.max_entries)
    (hsw : ¬ st.stats_last_cleanup + st.cleanup_hours < now) :
    (store_metadata st now pid md).2 =
      updateStats
        (if dmem st.memory pid then
          { st with memory := dmod st.memory pid (fun e =>
              { e with
                metadata := dictUpdate e.metadata md
                agent_history := e.agent_history ++ ["metadata_updated"] }) }
        else
          { st with memory := st.memory ++ [(pid,
              { processing_id := pid
                timestamp := some now
                metadata := md
                agent_history := ["metadata_stored"] })] }) now := by
  simp only [store_metadata]
  by_cases hm : dmem st.memory pid = true
  · rw [if_pos hm]
    apply cleanupIfNeeded_noop
    · show (dmod st.memory pid (fun e =>
        { e with
          metadata := dictUpdate e.metadata md
          agent_history := e.agent_history ++ ["metadata_updated"] })).length
          ≤ st.max_entries
      rw [dmod, List.length_map]
      omega
    · exact hsw
  · rw [if_neg hm]
    apply cleanupIfNeeded_noop
    · show (st.memory ++ [(pid,
        ({ processing_id := pid
           timestamp := some now
           metadata := md
           agent_history := ["metadata_stored"] } : MemoryEntry))]).length ≤ st.max_entries
      rw [List.length_append]
      simpa using hcap
    · exact hsw

/-- On a well-formed state, a completed `store_metadata` leaves the table at or
under `max_entries`: the only write operation that invokes the retention
manager restores the capacity bound whenever it is exceeded. -/
theorem store_metadata_len (st : SharedMemory) (hWF : WF st) (now : Nat)
    (pid : String) (md : List (String × MVal)) :
    (store_metadata st now pid md).2.memory.length ≤ st.max_entries := by
  simp only [store_metadata]
  by_cases hm : dmem st.memory pid = true
  · rw [if_pos hm]
    have hWF1 : WF (updateStats { st with memory := dmod st.memory pid (fun e =>
        { e with
          metadata := dictUpdate e.metadata md
          agent_history := e.agent_history ++ ["metadata_updated"] }) } now) := by
      refine wf_of_fields ?_ ?_ (wf_dmod st hWF pid (fun e =>
        { e with
          metadata := dictUpdate e.metadata md
          agent_history := e.agent_history ++ ["metadata_updated"] })
        (fun e => rfl)) <;> rfl
    exact cleanupIfNeeded_le _ hWF1 now
  · rw [if_neg hm]
    have habs : dfind st.memory pid = none := dmem_eq_false_iff.mp (by simpa using hm)
    have hWF1 : WF (updateStats { st with memory := st.memory ++ [(pid,
        { processing_id := pid
          timestamp := some now
          metadata := md
          agent_history := ["metadata_stored"] })] } now) := by
      refine wf_of_fields ?_ ?_ (wf_append st hWF pid
        { processing_id := pid
          timestamp := some now
          metadata := md
          agent_history := ["metadata_stored"] } habs rfl) <;> rfl
    exact cleanupIfNeeded_le _ hWF1 now

theorem dfind_singleton (k : String) (v : α) : dfind [(k, v)] k = some v := by
  rw [dfind_cons]
  simp

/-- The entry table after `store_classification`. -/
theorem store_classification_memory (st : SharedMemory) (now : Nat) (pid : String)
    (c : ClassificationResult) :
    (store_classification st now pid c).2.memory =
      if dmem st.memory pid then
        dmod st.memory pid (fun e =>
          { e with
            classification := some c
            agent_history := e.agent_history ++ ["classification_stored"] })
      else st.memory ++ [(pid,
        { processing_id := pid
          timestamp := some now
          metadata := []
          classification := some c
          agent_history := ["classification_stored"] })] := by
  simp only [store_classification]
  split <;> rfl

/-- The entry table after `store_extracted_data`. -/
theorem store_extracted_memory (st : SharedMemory) (now : Nat) (pid : String)
    (xd : List (String × MVal)) :
    (store_extracted_data st now pid xd).2.memory =
      if dmem st.memory pid then
        dmod st.memory pid (fun e =>
          { e with
            extracted_data := some xd
            agent_history := e.agent_history ++ ["data_extracted"] })
      else st.memory ++ [(pid,
        { processing_id := pid
          timestamp := some now
          metadata := []
          extracted_data := some xd
          agent_history := ["data_extracted"] })] := by
  simp only [store_extracted_data]
  split <;> rfl

/-- The entry table after `store_conversation_id` (the subsequent index
maintenance never touches the entry table). -/
theorem store_conversation_memory (st : SharedMemory) (now : Nat) (pid cid : String) :
    (store_conversation_id st now pid cid).2.memory =
      if dmem st.memory pid then
        dmod st.memory pid (fun e =>
          { e with
            conversation_id := some cid
            agent_history := e.agent_history ++ ["conversation_id_stored"] })
      else st.memory ++ [(pid,
        { processing_id := pid
          timestamp := some now
          metadata := []
          conversation_id := some cid
          agent_history := ["conversation_id_stored"] })] := rfl

/-- `store_metadata` on an existing id within capacity and window: pure merge. -/
theorem store_metadata_eq_update (st : SharedMemory) (now : Nat) (pid : String)
    (md : List (String × MVal)) (hm : dmem st.memory pid = true)
    (hcap : st.memory.length ≤ st.max_entries)
    (hsw : ¬ st.stats_last_cleanup + st.cleanup_hours < now) :
    (store_metadata st now pid md).2 =
      updateStats { st with memory := dmod st.memory pid (fun e =>
        { e with
          metadata := dictUpdate e.metadata md
          agent_history := e.agent_history ++ ["metadata_updated"] }) } now := by
  simp only [store_metadata]
  rw [if_pos hm]
  apply cleanupIfNeeded_noop
  · show (dmod st.memory pid (fun e =>
      { e with
        metadata := dictUpdate e.metadata md
        agent_history := e.agent_history ++ ["metadata_updated"] })).length
        ≤ st.max_entries
    rw [dmod, List.length_map]
    exact hcap
  · exact hsw

/-- `store_metadata` on a fresh id within capacity and window: pure creation. -/
theorem store_metadata_eq_fresh (st : SharedMemory) (now : Nat) (pid : String)
    (md : List (String × MVal)) (hm : dmem st.memory pid = false)
    (hcap : st.memory.length + 1 ≤ st.max_entries)
    (hsw : ¬ st.stats_last_cleanup + st.cleanup_hours < now) :
    (store_metadata st now pid md).2 =
      updateStats { st with memory := st.memory ++ [(pid,
        { processing_id := pid
          timestamp := some now
          metadata := md
          agent_history := ["metadata_stored"] })] } now := by
  simp only [store_metadata]
  rw [if_neg (by simp [hm])]
  apply cleanupIfNeeded_noop
  · show (st.memory ++ [(pid,
      ({ processing_id := pid
         timestamp := some now
         metadata := md
         agent_history := ["metadata_stored"] } : MemoryEntry))]).length ≤ st.max_entries
    rw [List.length_append]
    simpa using hcap
  · exact hsw

theorem length_filterMap_eq {α β : Type} (l : List α) (f : α → Option β) :
    (l.filterMap f).length = (l.filter (fun p => (f p).isSome)).length := by
  induction l with
  | nil => rfl
  | cons p l ih =>
    rw [List.filterMap_cons, List.filter_cons]
    cases hf : f p <;> simp [hf, ih]

/-! ### Claim theorems -/

/-- C10: `get_conversation_history` returns only records currently live in the
entry table: every returned entry resolves from some id in the conversation's
bucket, and the number returned is exactly the number of bucket ids whose
record is live — ids whose record is absent are silently skipped and never
produce an error or a stale result. -/
theorem C10_history_only_live (st : SharedMemory) (cid : String) :
    (∀ e ∈ get_conversation_history st cid,
        ∃ p ∈ (dfind st.conversation_index cid).getD [],
          dfind st.memory p = some e) ∧
    (get_conversation_history st cid).length =
      (((dfind st.conversation_index cid).getD []).filter
          (fun p => (dfind st.memory p).isSome)).length := by
  constructor
  · intro e he
    simp only [get_conversation_history] at he
    have he' : e ∈ ((dfind st.conversation_index cid).getD []).filterMap
        (fun p => dfind st.memory p) :=
      (List.perm_insertionSort tsLEe _).mem_iff.mp he
    rcases List.mem_filterMap.mp he' with ⟨p, hp, hfp⟩
    exact ⟨p, hp, hfp⟩
  · simp only [get_conversation_history]
    rw [(List.perm_insertionSort tsLEe _).length_eq]
    exact length_filterMap_eq _ _

/-- C8 (amended): deleting an unknown id returns `false` (no exception in the
model: `clear_memory` is total) and leaves the state untouched; deleting a
known id returns `true` and removes the record.  When the record carries a
non-empty conversation id, the id is removed from that conversation's bucket,
the bucket being deleted when it becomes empty; when the conversation id is
absent — or is the empty string, which Python's truthiness guard treats like
`None` — the conversation index is left entirely untouched. -/
theorem C8_delete_semantics (st : SharedMemory) (hWF : WF st) (now : Nat)
    (pid : String) :
    (dfind st.memory pid = none → clear_memory st now pid = (false, st)) ∧
    (∀ e, dfind st.memory pid = some e →
      (clear_memory st now pid).1 = true ∧
      dfind (clear_memory st now pid).2.memory pid = none ∧
      (∀ cid, e.conversation_id = some cid → ¬ cid = "" →
        dfind (clear_memory st now pid).2.conversation_index cid =
          (if ((dfind st.conversation_index cid).getD []).erase pid = []
           then none
           else some (((dfind st.conversation_index cid).getD []).erase pid))) ∧
      (e.conversation_id = none ∨ e.conversation_id = some "" →
        (clear_memory st now pid).2.conversation_index = st.conversation_index)) := by
  constructor
  · intro hf
    simp only [clear_memory, hf]
  · intro e hf
    obtain ⟨cm, cr, _, _, _, _⟩ := clear_fwd_spec st hWF.forward now pid
    refine ⟨by rw [cr, hf]; rfl, by rw [cm]; exact dfind_derase_self _ _, ?_, ?_⟩
    · intro cid hcid hne
      obtain ⟨b, hb, hpb⟩ := hWF.forward (pid, e) (dfind_mem hf) cid hcid
      have hdm : dmem st.conversation_index cid = true := by
        rw [dmem, hb]
        rfl
      simp only [clear_memory, hf, hcid, hb, Option.getD_some]
      rw [if_neg (show ¬ ((cid == "") = true) by simp [hne])]
      by_cases hbe : (b.erase pid).isEmpty = true
      · have hbnil : b.erase pid = [] := List.isEmpty_iff.mp hbe
        rw [if_pos hbe, if_pos hdm, if_pos hbnil]
        exact dfind_derase_self _ _
      · have hbne : ¬ b.erase pid = [] := by
          intro h
          exact hbe (by rw [h]; rfl)
        rw [if_neg hbe, if_neg hbne]
        exact dfind_dset_self _ _ _
    · rintro (hcnone | hcblank)
      · simp only [clear_memory, hf, hcnone]
        rfl
      · simp only [clear_memory, hf, hcblank]
        rw [if_pos (show (("" : String) == "") = true by decide)]
        rfl

/-- C5: when the age sweep runs, every record whose (valid) timestamp is older
than `now - cleanup_hours` is removed regardless of table size, every record
with an unparseable timestamp is removed as well (fail-safe eviction), and the
last-sweep stamp is set to `now` unconditionally, even when nothing was
evicted. -/
theorem C5_age_sweep (st : SharedMemory) (hWF : WF st) (now : Nat) :
    (∀ pe ∈ st.memory, ∀ t, pe.2.timestamp = some t → t + st.cleanup_hours < now →
        dfind (cleanupExpiredEntries st now).memory pe.1 = none) ∧
    (∀ pe ∈ st.memory, pe.2.timestamp = none →
        dfind (cleanupExpiredEntries st now).memory pe.1 = none) ∧
    (cleanupExpiredEntries st now).stats_last_cleanup = now := by
  obtain ⟨hm, hlc, _, _⟩ := cleanupExpired_spec st hWF now
  have hgone : ∀ pe ∈ st.memory,
      isExpired st.cleanup_hours now pe.2.timestamp = true →
      dfind (cleanupExpiredEntries st now).memory pe.1 = none := by
    intro pe hpe hexp
    rw [hm, dfind_kfilter]
    have hmm : pe.1 ∈ (st.memory.filter
        (fun q => isExpired st.cleanup_hours now q.2.timestamp)).map (·.1) := by
      refine List.mem_map.mpr ⟨pe, ?_, rfl⟩
      exact List.mem_filter.mpr ⟨hpe, hexp⟩
    rw [if_neg (by simp [hmm])]
  refine ⟨?_, ?_, hlc⟩
  · intro pe hpe t ht hold
    refine hgone pe hpe ?_
    rw [ht]
    simp [isExpired, hold]
  · intro pe hpe ht
    refine hgone pe hpe ?_
    rw [ht]
    rfl

/-- C9 (implicit): the eviction buffer is the fixed constant 100, independent
of `max_entries`: when the capacity trigger fires, exactly
`min (size - maxEntries + 100) size` oldest entries are removed, leaving
`max (0, maxEntries - 100)` (Nat subtraction), and any configuration with
`maxEntries ≤ 100` has the whole table evicted. -/
theorem C9_eviction_buffer (st : SharedMemory) (hWF : WF st) (now : Nat)
    (hover : st.max_entries < st.memory.length) :
    (cleanupOldEntries st now).memory.length = st.max_entries - 100 ∧
    st.memory.length - (cleanupOldEntries st now).memory.length
      = min (st.memory.length - st.max_entries + 100) st.memory.length ∧
    (st.max_entries ≤ 100 → (cleanupOldEntries st now).memory = []) := by
  obtain ⟨hlen, _, _, _, _, _⟩ := cleanupOld_spec st hWF now hover
  refine ⟨hlen, by omega, ?_⟩
  intro hle
  have h0 : (cleanupOldEntries st now).memory.length = 0 := by omega
  exact List.length_eq_zero.mp h0

/-- C6: when the capacity trigger fires, the table is reduced to
`maxEntries - evictionBuffer` (buffer = 100, Nat subtraction), survivors are
original records, and the evicted records are exactly the oldest by creation
time: every evicted record's timestamp is at most every survivor's. -/
theorem C6_evicts_oldest (st : SharedMemory) (hWF : WF st) (now : Nat)
    (hover : st.max_entries < st.memory.length) :
    (cleanupOldEntries st now).memory.length = st.max_entries - 100 ∧
    (∀ pe ∈ (cleanupOldEntries st now).memory, pe ∈ st.memory) ∧
    (∀ pe ∈ (cleanupOldEntries st now).memory, ∀ qe ∈ st.memory,
        dfind (cleanupOldEntries st now).memory qe.1 = none →
        ∀ tq tp, qe.2.timestamp = some tq → pe.2.timestamp = some tp → tq ≤ tp) := by
  obtain ⟨hlen, hsub, hold, _, _, _⟩ := cleanupOld_spec st hWF now hover
  refine ⟨hlen, hsub, ?_⟩
  intro pe hpe qe hqe hgone tq tp htq htp
  have hle := hold pe hpe qe hqe hgone
  rw [tsLE] at hle
  rw [htq, htp] at hle
  simp only [tsKey] at hle
  omega

/-- C1 counterexample: on a store configured with `max_entries = 1`, two
successful `store_classification` writes with distinct ids leave the table at
size 2 > 1 — the classification, extraction and conversation writes never
invoke the retention manager, so the claimed bound fails for them. -/
theorem C1_cex_classification_overflow :
    c1cexSt.max_entries < c1cexSt.memory.length ∧
    (store_classification (store_classification (mkSharedMemory 1 24 0) 0 "a" exCls).2
        0 "b" exCls).1 = true := by
  constructor
  · decide
  · rfl

/-- C1 (amended): `store_metadata` — the one write operation that runs the
retention manager — always leaves the table at or below `max_entries` on a
well-formed store; so inserting `maxEntries + k` distinct ids through
`store_metadata` keeps the size ≤ `maxEntries` after every triggering write. -/
theorem C1_metadata_write_capacity (st : SharedMemory) (hWF : WF st) (now : Nat)
    (pid : String) (md : List (String × MVal)) :
    (store_metadata st now pid md).1 = true ∧
    (store_metadata st now pid md).2.memory.length ≤ st.max_entries :=
  ⟨rfl, store_metadata_len st hWF now pid md⟩


/-- C4: `store_metadata` merges key-wise into the record's metadata: writing
`m1` then `m2` to a fresh id leaves the metadata at `dictUpdate m1 m2`; every
key of `m2` carries `m2`'s value (later write wins), and every key absent from
`m2` keeps its value from `m1`.  In particular `[("a",1)]` then `[("b",2)]`
gives both keys, and `[("a",1)]` then `[("a",2)]` gives `"a" ↦ 2`.  (The two
writes must not trip the retention manager.) -/
theorem C4_metadata_merge (st : SharedMemory) (pid : String)
    (m1 m2 : List (String × MVal)) (t1 t2 : Nat)
    (habs : dfind st.memory pid = none)
    (hcap : st.memory.length + 1 ≤ st.max_entries)
    (h1 : ¬ st.stats_last_cleanup + st.cleanup_hours < t1)
    (h2 : ¬ st.stats_last_cleanup + st.cleanup_hours < t2)
    (hnd : (m2.map Prod.fst).Nodup) :
    get_metadata (store_metadata (store_metadata st t1 pid m1).2 t2 pid m2).2 pid
        = some (dictUpdate m1 m2) ∧
    (∀ k v, dfind m2 k = some v → dfind (dictUpdate m1 m2) k = some v) ∧
    (∀ k, dfind m2 k = none → dfind (dictUpdate m1 m2) k = dfind m1 k) := by
  refine ⟨?_, fun k v h => dfind_dictUpdate_of_mem _ _ hnd h,
    fun k h => dfind_dictUpdate_of_not_mem _ _ h⟩
  have hmf : dmem st.memory pid = false := by
    rw [dmem, habs]
    rfl
  rw [store_metadata_eq_fresh st t1 pid m1 hmf hcap h1]
  have hfind1 : dfind (st.memory ++ [(pid,
      ({ processing_id := pid
         timestamp := some t1
         metadata := m1
         agent_history := ["metadata_stored"] } : MemoryEntry))]) pid
      = some { processing_id := pid
               timestamp := some t1
               metadata := m1
               agent_history := ["metadata_stored"] } := by
    rw [dfind_append, habs, dfind_singleton]
    rfl
  have hm2 : dmem (updateStats { st with memory := st.memory ++ [(pid,
      ({ processing_id := pid
         timestamp := some t1
         metadata := m1
         agent_history := ["metadata_stored"] } : MemoryEntry))] } t1).memory pid
      = true := by
    show dmem (st.memory ++ [(pid,
      ({ processing_id := pid
         timestamp := some t1
         metadata := m1
         agent_history := ["metadata_stored"] } : MemoryEntry))]) pid = true
    rw [dmem, hfind1]
    rfl
  rw [store_metadata_eq_update _ t2 pid m2 hm2
    (by
      show (st.memory ++ [(pid,
        ({ processing_id := pid
           timestamp := some t1
           metadata := m1
           agent_history := ["metadata_stored"] } : MemoryEntry))]).length
          ≤ st.max_entries
      rw [List.length_append]
      simpa using hcap)
    (by
      show ¬ st.stats_last_cleanup + st.cleanup_hours < t2
      exact h2)]
  show ((dfind (dmod (st.memory ++ [(pid,
      ({ processing_id := pid
         timestamp := some t1
         metadata := m1
         agent_history := ["metadata_stored"] } : MemoryEntry))]) pid (fun e =>
      { e with
        metadata := dictUpdate e.metadata m2
        agent_history := e.agent_history ++ ["metadata_updated"] })) pid).map
      (·.metadata)) = some (dictUpdate m1 m2)
  rw [dfind_dmod_self, hfind1]
  rfl


theorem store_classification_fields (st : SharedMemory) (now : Nat) (pid : String)
    (c : ClassificationResult) :
    (store_classification st now pid c).2.max_entries = st.max_entries ∧
    (store_classification st now pid c).2.cleanup_hours = st.cleanup_hours ∧
    (store_classification st now pid c).2.stats_last_cleanup
      = st.stats_last_cleanup := by
  simp only [store_classification]
  split <;> exact ⟨rfl, rfl, rfl⟩

theorem store_extracted_fields (st : SharedMemory) (now : Nat) (pid : String)
    (xd : List (String × MVal)) :
    (store_extracted_data st now pid xd).2.max_entries = st.max_entries ∧
    (store_extracted_data st now pid xd).2.cleanup_hours = st.cleanup_hours ∧
    (store_extracted_data st now pid xd).2.stats_last_cleanup
      = st.stats_last_cleanup := by
  simp only [store_extracted_data]
  split <;> exact ⟨rfl, rfl, rfl⟩

theorem store_conversation_fields (st : SharedMemory) (now : Nat) (pid cid : String) :
    (store_conversation_id st now pid cid).2.max_entries = st.max_entries ∧
    (store_conversation_id st now pid cid).2.cleanup_hours = st.cleanup_hours ∧
    (store_conversation_id st now pid cid).2.stats_last_cleanup
      = st.stats_last_cleanup := ⟨rfl, rfl, rfl⟩

theorem histOf_singleton (st : SharedMemory) (pid : String) (e : MemoryEntry)
    (h : st.memory = [(pid, e)]) : histOf st pid = e.agent_history := by
  rw [histOf, h, dfind_singleton]
  rfl

theorem runWrites_nil (st : SharedMemory) (pid : String) :
    runWrites st pid [] = st := rfl

theorem runWrites_cons (st : SharedMemory) (pid : String) (w : Nat × WriteOp)
    (ws : List (Nat × WriteOp)) :
    runWrites st pid (w :: ws) = runWrites (applyWrite st pid w).2 pid ws := rfl

theorem runWrites_append (st : SharedMemory) (pid : String)
    (l1 l2 : List (Nat × WriteOp)) :
    runWrites st pid (l1 ++ l2) = runWrites (runWrites st pid l1) pid l2 :=
  List.foldl_append _ _ _ _

/-- One write applied to a store holding exactly the target record: the record
stays unique and exactly one tag is appended to its history. -/
theorem write_one (st : SharedMemory) (pid : String) (e : MemoryEntry)
    (w : Nat × WriteOp) (hmem : st.memory = [(pid, e)])
    (hcap : 1 ≤ st.max_entries)
    (hsw : ¬ st.stats_last_cleanup + st.cleanup_hours < w.1) :
    ∃ (e' : MemoryEntry) (tag : String),
      (applyWrite st pid w).2.memory = [(pid, e')] ∧
      e'.agent_history = e.agent_history ++ [tag] ∧
      (applyWrite st pid w).2.max_entries = st.max_entries ∧
      (applyWrite st pid w).2.cleanup_hours = st.cleanup_hours ∧
      (applyWrite st pid w).2.stats_last_cleanup = st.stats_last_cleanup := by
  have hfind : dfind st.memory pid = some e := by
    rw [hmem]
    exact dfind_singleton pid e
  have hdm : dmem st.memory pid = true := by
    rw [dmem, hfind]
    rfl
  have hone : st.memory.length ≤ st.max_entries := by
    rw [hmem]
    simpa using hcap
  have hdmod : ∀ f : MemoryEntry → MemoryEntry, dmod st.memory pid f = [(pid, f e)] := by
    intro f
    rw [hmem, dmod, List.map_cons, List.map_nil]
    simp
  obtain ⟨t, op⟩ := w
  cases op with
  | putMeta md =>
    have heq := store_metadata_eq_update st t pid md hdm hone hsw
    refine ⟨{ e with
        metadata := dictUpdate e.metadata md
        agent_history := e.agent_history ++ ["metadata_updated"] },
      "metadata_updated", ?_, rfl, ?_, ?_, ?_⟩
    · simp only [applyWrite]
      rw [heq]
      show dmod st.memory pid (fun e =>
        { e with
          metadata := dictUpdate e.metadata md
          agent_history := e.agent_history ++ ["metadata_updated"] }) = _
      rw [hdmod]
    · simp only [applyWrite]
      rw [heq]
      rfl
    · simp only [applyWrite]
      rw [heq]
      rfl
    · simp only [applyWrite]
      rw [heq]
      rfl
  | putCls c =>
    obtain ⟨f1, f2, f3⟩ := store_classification_fields st t pid c
    refine ⟨{ e with
        classification := some c
        agent_history := e.agent_history ++ ["classification_stored"] },
      "classification_stored", ?_, rfl, f1, f2, f3⟩
    simp only [applyWrite]
    rw [store_classification_memory, if_pos hdm, hdmod]
  | putExtr xd =>
    obtain ⟨f1, f2, f3⟩ := store_extracted_fields st t pid xd
    refine ⟨{ e with
        extracted_data := some xd
        agent_history := e.agent_history ++ ["data_extracted"] },
      "data_extracted", ?_, rfl, f1, f2, f3⟩
    simp only [applyWrite]
    rw [store_extracted_memory, if_pos hdm, hdmod]
  | putConv cid =>
    obtain ⟨f1, f2, f3⟩ := store_conversation_fields st t pid cid
    refine ⟨{ e with
        conversation_id := some cid
        agent_history := e.agent_history ++ ["conversation_id_stored"] },
      "conversation_id_stored", ?_, rfl, f1, f2, f3⟩
    simp only [applyWrite]
    rw [store_conversation_memory, if_pos hdm, hdmod]

/-- The first write against an empty store creates exactly the one record with
one history tag. -/
theorem write_first (st : SharedMemory) (pid : String) (w : Nat × WriteOp)
    (hmem : st.memory = [])
    (hcap : 1 ≤ st.max_entries)
    (hsw : ¬ st.stats_last_cleanup + st.cleanup_hours < w.1) :
    ∃ e' : MemoryEntry,
      (applyWrite st pid w).2.memory = [(pid, e')] ∧
      e'.agent_history.length = 1 ∧
      (applyWrite st pid w).2.max_entries = st.max_entries ∧
      (applyWrite st pid w).2.cleanup_hours = st.cleanup_hours ∧
      (applyWrite st pid w).2.stats_last_cleanup = st.stats_last_cleanup := by
  have habs : dfind st.memory pid = none := by
    rw [hmem]
    rfl
  have hdm : dmem st.memory pid = false := by
    rw [dmem, habs]
    rfl
  have hcap1 : st.memory.length + 1 ≤ st.max_entries := by
    rw [hmem]
    simpa using hcap
  obtain ⟨t, op⟩ := w
  cases op with
  | putMeta md =>
    have heq := store_metadata_eq_fresh st t pid md hdm hcap1 hsw
    refine ⟨{ processing_id := pid
              timestamp := some t
              metadata := md
              agent_history := ["metadata_stored"] }, ?_, rfl, ?_, ?_, ?_⟩
    · simp only [applyWrite]
      rw [heq]
      show st.memory ++ [(pid,
        ({ processing_id := pid
           timestamp := some t
           metadata := md
           agent_history := ["metadata_stored"] } : MemoryEntry))] = _
      rw [hmem]
      rfl
    · simp only [applyWrite]
      rw [heq]
      rfl
    · simp only [applyWrite]
      rw [heq]
      rfl
    · simp only [applyWrite]
      rw [heq]
      rfl
  | putCls c =>
    obtain ⟨f1, f2, f3⟩ := store_classification_fields st t pid c
    refine ⟨{ processing_id := pid
              timestamp := some t
              metadata := []
              classification := some c
              agent_history := ["classification_stored"] }, ?_, rfl, f1, f2, f3⟩
    simp only [applyWrite]
    rw [store_classification_memory, if_neg (by simp [hdm]), hmem]
    rfl
  | putExtr xd =>
    obtain ⟨f1, f2, f3⟩ := store_extracted_fields st t pid xd
    refine ⟨{ processing_id := pid
              timestamp := some t
              metadata := []
              extracted_data := some xd
              agent_history := ["data_extracted"] }, ?_, rfl, f1, f2, f3⟩
    simp only [applyWrite]
    rw [store_extracted_memory, if_neg (by simp [hdm]), hmem]
    rfl
  | putConv cid =>
    obtain ⟨f1, f2, f3⟩ := store_conversation_fields st t pid cid
    refine ⟨{ processing_id := pid
              timestamp := some t
              metadata := []
              conversation_id := some cid
              agent_history := ["conversation_id_stored"] }, ?_, rfl, f1, f2, f3⟩
    simp only [applyWrite]
    rw [store_conversation_memory, if_neg (by simp [hdm]), hmem]
    rfl

/-- Running writes against a store holding exactly the target record keeps the
record unique, preserves the configuration, and appends one tag per write. -/
theorem writes_step (pid : String) (maxE hours t0 : Nat) :
    ∀ (ws : List (Nat × WriteOp)) (st : SharedMemory) (e : MemoryEntry),
      st.memory = [(pid, e)] → st.max_entries = maxE → st.cleanup_hours = hours →
      st.stats_last_cleanup = t0 → 1 ≤ maxE →
      (∀ w ∈ ws, ¬ t0 + hours < w.1) →
      ∃ (e' : MemoryEntry) (tl : List String),
        (runWrites st pid ws).memory = [(pid, e')] ∧
        (runWrites st pid ws).max_entries = maxE ∧
        (runWrites st pid ws).cleanup_hours = hours ∧
        (runWrites st pid ws).stats_last_cleanup = t0 ∧
        e'.agent_history = e.agent_history ++ tl ∧
        tl.length = ws.length := by
  intro ws
  induction ws with
  | nil =>
    intro st e h1 h2 h3 h4 _ _
    exact ⟨e, [], by rw [runWrites_nil]; exact h1, by rw [runWrites_nil]; exact h2,
      by rw [runWrites_nil]; exact h3, by rw [runWrites_nil]; exact h4,
      (List.append_nil _).symm, rfl⟩
  | cons w rest ih =>
    intro st e h1 h2 h3 h4 hmax hts
    have hsw : ¬ st.stats_last_cleanup + st.cleanup_hours < w.1 := by
      rw [h3, h4]
      exact hts w (List.mem_cons_self _ _)
    obtain ⟨e1, tag, hm1, hh1, hmx, hch, hlc⟩ :=
      write_one st pid e w h1 (by omega) hsw
    obtain ⟨e', tl, gm, gmx, gch, glc, ghist, glen⟩ :=
      ih (applyWrite st pid w).2 e1 hm1 (by rw [hmx, h2]) (by rw [hch, h3])
        (by rw [hlc, h4]) hmax
        (fun w' hw' => hts w' (List.mem_cons_of_mem _ hw'))
    refine ⟨e', tag :: tl, ?_, ?_, ?_, ?_, ?_, ?_⟩
    · rw [runWrites_cons]
      exact gm
    · rw [runWrites_cons]
      exact gmx
    · rw [runWrites_cons]
      exact gch
    · rw [runWrites_cons]
      exact glc
    · rw [ghist, hh1, List.append_assoc]
      rfl
    · simp [glen]

/-- A nonempty write sequence from a freshly constructed store yields exactly
one record, with preserved configuration and history length = number of
writes. -/
theorem runWrites_from_empty (pid : String) (maxE hours t0 : Nat) (hmax : 1 ≤ maxE)
    (w : Nat × WriteOp) (ws : List (Nat × WriteOp))
    (hts : ∀ x ∈ w :: ws, ¬ t0 + hours < x.1) :
    ∃ e' : MemoryEntry,
      (runWrites (mkSharedMemory maxE hours t0) pid (w :: ws)).memory = [(pid, e')] ∧
      (runWrites (mkSharedMemory maxE hours t0) pid (w :: ws)).max_entries = maxE ∧
      (runWrites (mkSharedMemory maxE hours t0) pid (w :: ws)).cleanup_hours = hours ∧
      (runWrites (mkSharedMemory maxE hours t0) pid (w :: ws)).stats_last_cleanup = t0 ∧
      e'.agent_history.length = ws.length + 1 := by
  obtain ⟨e1, hm1, hl1, hmx, hch, hlc⟩ :=
    write_first (mkSharedMemory maxE hours t0) pid w rfl hmax
      (hts w (List.mem_cons_self _ _))
  obtain ⟨e', tl, gm, gmx, gch, glc, ghist, glen⟩ :=
    writes_step pid maxE hours t0 ws (applyWrite (mkSharedMemory maxE hours t0) pid w).2
      e1 hm1 hmx hch hlc hmax (fun w' hw' => hts w' (List.mem_cons_of_mem _ hw'))
  refine ⟨e', ?_, ?_, ?_, ?_, ?_⟩
  · rw [runWrites_cons]
    exact gm
  · rw [runWrites_cons]
    exact gmx
  · rw [runWrites_cons]
    exact gch
  · rw [runWrites_cons]
    exact glc
  · rw [ghist, List.length_append, hl1, glen]
    omega


/-- C3 (amended): on a freshly constructed store (`max_entries ≥ 1`), any mix
of the four write operations against one processing id — all issued before the
age sweep becomes due — leaves exactly one record with that id; its history
length equals the number of writes; and after any prefix of the sequence the
history so far is a prefix of the final history (append-only: length is
monotone non-decreasing, nothing is truncated or reordered). -/
theorem C3_unique_record_history (pid : String) (maxE hours t0 : Nat)
    (hmax : 1 ≤ maxE) (ws : List (Nat × WriteOp))
    (hts : ∀ w ∈ ws, ¬ t0 + hours < w.1) :
    ((runWrites (mkSharedMemory maxE hours t0) pid ws).memory.map Prod.fst
        = if ws = [] then [] else [pid]) ∧
    (∀ e, dfind (runWrites (mkSharedMemory maxE hours t0) pid ws).memory pid
        = some e → e.agent_history.length = ws.length) ∧
    (∀ l1 l2, ws = l1 ++ l2 →
        ∃ tl, histOf (runWrites (mkSharedMemory maxE hours t0) pid ws) pid
            = histOf (runWrites (mkSharedMemory maxE hours t0) pid l1) pid ++ tl) := by
  cases ws with
  | nil =>
    refine ⟨by simp [runWrites_nil, mkSharedMemory], ?_, ?_⟩
    · intro e he
      rw [runWrites_nil] at he
      simp [mkSharedMemory, dfind] at he
    · intro l1 l2 hsplit
      have h1 : l1 = [] := (List.append_eq_nil.mp hsplit.symm).1
      subst h1
      exact ⟨[], by rw [List.append_nil]⟩
  | cons w rest =>
    obtain ⟨e', hm, hmx, hch, hlc, hlen⟩ :=
      runWrites_from_empty pid maxE hours t0 hmax w rest hts
    refine ⟨by rw [hm]; simp, ?_, ?_⟩
    · intro e he
      rw [hm, dfind_singleton] at he
      injection he with he'
      rw [← he', hlen, List.length_cons]
    · intro l1 l2 hsplit
      cases l1 with
      | nil =>
        refine ⟨histOf (runWrites (mkSharedMemory maxE hours t0) pid (w :: rest)) pid, ?_⟩
        rw [runWrites_nil]
        have hinit : histOf (mkSharedMemory maxE hours t0) pid = [] := rfl
        rw [hinit, List.nil_append]
      | cons w1 l1' =>
        have hw1' : w1 = w := by
          injection hsplit with a b
          exact a.symm
        have hrest : rest = l1' ++ l2 := by
          injection hsplit with a b
        subst hw1'
        obtain ⟨e1, am, amx, ach, alc, _⟩ :=
          runWrites_from_empty pid maxE hours t0 hmax w1 l1'
            (fun x hx => by
              rcases List.mem_cons.mp hx with h | h
              · exact h ▸ hts w1 (List.mem_cons_self _ _)
              · exact hts x (List.mem_cons_of_mem _
                  (by rw [hrest]; exact List.mem_append_left _ h)))
        obtain ⟨e2, tl, gm, _, _, _, ghist, _⟩ :=
          writes_step pid maxE hours t0 l2
            (runWrites (mkSharedMemory maxE hours t0) pid (w1 :: l1')) e1
            am amx ach alc hmax
            (fun x hx => hts x (List.mem_cons_of_mem _
              (by rw [hrest]; exact List.mem_append_right _ hx)))
        refine ⟨tl, ?_⟩
        rw [hrest, ← List.cons_append, runWrites_append]
        rw [histOf_singleton _ pid e2 gm, histOf_singleton _ pid e1 am, ghist]


/-- The conversation index after `store_conversation_id` when the conversation
already has a bucket. -/
theorem store_conversation_index_mem (st : SharedMemory) (now : Nat) (pid cid : String)
    (hdc : dmem st.conversation_index cid = true) :
    (store_conversation_id st now pid cid).2.conversation_index =
      if ((dfind st.conversation_index cid).getD []).contains pid then
        st.conversation_index
      else dset st.conversation_index cid
        (((dfind st.conversation_index cid).getD []) ++ [pid]) := by
  simp only [store_conversation_id]
  rw [if_pos hdc]
  rfl

/-- The conversation index after `store_conversation_id` when the conversation
is new: an empty bucket is created and the pid appended. -/
theorem store_conversation_index_new (st : SharedMemory) (now : Nat) (pid cid : String)
    (hdc : dmem st.conversation_index cid = false) :
    (store_conversation_id st now pid cid).2.conversation_index =
      dset (st.conversation_index ++ [(cid, [])]) cid [pid] := by
  simp only [store_conversation_id]
  rw [if_neg (show ¬ dmem st.conversation_index cid = true by simp [hdc])]
  have hb : (dfind (st.conversation_index ++ [(cid, [])]) cid).getD []
      = ([] : List String) := by
    rw [dfind_append, dmem_eq_false_iff.mp hdc, dfind_singleton]
    rfl
  rw [hb]
  rw [if_neg (show ¬ (([] : List String).contains pid) = true by simp)]
  rfl

/-- `store_conversation_id` preserves well-formedness as long as it never
reassigns a record to a different conversation. -/
theorem wf_store_conversation (st : SharedMemory) (hWF : WF st) (now : Nat)
    (pid cid : String) (hcompat : convCompatible st pid cid = true) :
    WF (store_conversation_id st now pid cid).2 := by
  have hmemc := store_conversation_memory st now pid cid
  have hkeys : ((store_conversation_id st now pid cid).2.memory.map Prod.fst).Nodup := by
    rw [hmemc]
    by_cases hm : dmem st.memory pid = true
    · rw [if_pos hm, keys_dmod]
      exact hWF.memNodup
    · rw [if_neg hm, List.map_append]
      refine List.Nodup.append hWF.memNodup (by simp) ?_
      intro a ha hb
      simp at hb
      subst hb
      have habs : dfind st.memory a = none := dmem_eq_false_iff.mp (by simpa using hm)
      rcases List.mem_map.mp ha with ⟨q, hq, hq1⟩
      exact (dfind_eq_none.mp habs) q hq hq1
  have hfind_pid : ∃ E, dfind (store_conversation_id st now pid cid).2.memory pid = some E
      ∧ E.conversation_id = some cid := by
    rw [hmemc]
    by_cases hm : dmem st.memory pid = true
    · rcases dmem_eq_true_iff.mp hm with ⟨e, he⟩
      rw [if_pos hm, dfind_dmod_self, he]
      exact ⟨_, rfl, rfl⟩
    · rw [if_neg hm, dfind_append, dmem_eq_false_iff.mp (by simpa using hm),
        dfind_singleton]
      exact ⟨_, rfl, rfl⟩
  have hfind_other : ∀ p, ¬ p = pid →
      dfind (store_conversation_id st now pid cid).2.memory p = dfind st.memory p := by
    intro p hp
    rw [hmemc]
    by_cases hm : dmem st.memory pid = true
    · rw [if_pos hm, dfind_dmod_ne _ _ hp]
    · rw [if_neg hm, dfind_append, dfind_cons]
      rw [if_neg (by simp; exact fun he => hp he.symm)]
      rw [dfind_nil]
      cases dfind st.memory p <;> rfl
  have hmem_elim : ∀ pe ∈ (store_conversation_id st now pid cid).2.memory,
      (pe ∈ st.memory ∧ ¬ pe.1 = pid) ∨
      (pe.1 = pid ∧ pe.2.conversation_id = some cid) := by
    intro pe hpe
    rw [hmemc] at hpe
    by_cases hm : dmem st.memory pid = true
    · rw [if_pos hm] at hpe
      rcases mem_dmod_elim hpe with ⟨h1, h2⟩ | ⟨v, _, hpe'⟩
      · exact Or.inl ⟨h1, h2⟩
      · right
        rw [hpe']
        exact ⟨rfl, rfl⟩
    · rw [if_neg hm] at hpe
      rcases List.mem_append.mp hpe with h | h
      · left
        refine ⟨h, fun he => ?_⟩
        have habs : dfind st.memory pid = none := dmem_eq_false_iff.mp (by simpa using hm)
        exact (dfind_eq_none.mp habs) pe h he
      · right
        have hpe' := List.mem_singleton.mp h
        rw [hpe']
        exact ⟨rfl, rfl⟩
  have hcompat' : (∀ cb ∈ st.conversation_index, pid ∉ cb.2) ∨
      (∃ e, dfind st.memory pid = some e ∧ e.conversation_id = some cid) := by
    rw [convCompatible] at hcompat
    cases hf : dfind st.memory pid with
    | none =>
      left
      intro cb hcb hpin
      obtain ⟨e', hfe', _⟩ := hWF.backward cb hcb pid hpin
      rw [hf] at hfe'
      cases hfe'
    | some e =>
      rw [hf] at hcompat
      simp only [Bool.or_eq_true, beq_iff_eq] at hcompat
      rcases hcompat with hnone | hsame
      · left
        intro cb hcb hpin
        obtain ⟨e', hfe', hce'⟩ := hWF.backward cb hcb pid hpin
        rw [hf] at hfe'
        cases hfe'
        rw [hnone] at hce'
        cases hce'
      · right
        exact ⟨e, rfl, hsame⟩
  have hpid_only_cid : ∀ cb ∈ st.conversation_index, pid ∈ cb.2 → cb.1 = cid := by
    intro cb hcb hpin
    rcases hcompat' with hno | ⟨e, hf, hce⟩
    · exact absurd hpin (hno cb hcb)
    · obtain ⟨e', hfe', hce'⟩ := hWF.backward cb hcb pid hpin
      rw [hf] at hfe'
      cases hfe'
      rw [hce] at hce'
      exact (Option.some.inj hce').symm
  obtain ⟨E, hEfind, hEconv⟩ := hfind_pid
  by_cases hdc : dmem st.conversation_index cid = true
  · rcases dmem_eq_true_iff.mp hdc with ⟨b, hbfind⟩
    have hcbmem : (cid, b) ∈ st.conversation_index := dfind_mem hbfind
    have hbnd : b.Nodup := hWF.bucketNodup _ hcbmem
    have hidx := store_conversation_index_mem st now pid cid hdc
    rw [hbfind, Option.getD_some] at hidx
    by_cases hct : b.contains pid = true
    · rw [if_pos hct] at hidx
      have hpinb : pid ∈ b := by simpa using hct
      refine ⟨hkeys, ?_, ?_, ?_, ?_, ?_⟩
      · rw [hidx]
        exact hWF.idxNodup
      · rw [hidx]
        exact hWF.bucketNe
      · rw [hidx]
        exact hWF.bucketNodup
      · rw [hidx]
        intro cb hcb p hp
        by_cases hpp : p = pid
        · subst hpp
          have hc1 : cb.1 = cid := hpid_only_cid cb hcb hp
          refine ⟨E, hEfind, ?_⟩
          rw [hEconv, hc1]
        · obtain ⟨e', hfe', hce'⟩ := hWF.backward cb hcb p hp
          refine ⟨e', ?_, hce'⟩
          rw [hfind_other p hpp]
          exact hfe'
      · intro pe hpe c hcx
        rw [hidx]
        rcases hmem_elim pe hpe with ⟨hold, _⟩ | ⟨hp1, hcv⟩
        · exact hWF.forward pe hold c hcx
        · have hc : c = cid := by
            rw [hcv] at hcx
            exact (Option.some.inj hcx).symm
          subst hc
          refine ⟨b, hbfind, ?_⟩
          rw [hp1]
          exact hpinb
    · rw [if_neg hct] at hidx
      have hpnb : pid ∉ b := by
        intro hmemb
        exact hct (by simpa using hmemb)
      have hkeyset : ((dset st.conversation_index cid (b ++ [pid])).map Prod.fst)
          = st.conversation_index.map Prod.fst := keys_dset_of_mem _ hdc
      refine ⟨hkeys, ?_, ?_, ?_, ?_, ?_⟩
      · rw [hidx, hkeyset]
        exact hWF.idxNodup
      · rw [hidx]
        intro cb hcb
        rcases mem_dset_elim hcb with hcb' | ⟨hcb', _⟩
        · rw [hcb']
          simp
        · exact hWF.bucketNe cb hcb'
      · rw [hidx]
        intro cb hcb
        rcases mem_dset_elim hcb with hcb' | ⟨hcb', _⟩
        · rw [hcb']
          refine List.Nodup.append hbnd (by simp) ?_
          intro a ha hb'
          simp at hb'
          subst hb'
          exact hpnb ha
        · exact hWF.bucketNodup cb hcb'
      · rw [hidx]
        intro cb hcb p hp
        rcases mem_dset_elim hcb with hcb' | ⟨hcb', hne⟩
        · rw [hcb'] at hp ⊢
          rcases List.mem_append.mp hp with hpb | hpsing
          · have hppid : ¬ p = pid := fun he => hpnb (he ▸ hpb)
            obtain ⟨e', hfe', hce'⟩ := hWF.backward (cid, b) hcbmem p hpb
            refine ⟨e', ?_, hce'⟩
            rw [hfind_other p hppid]
            exact hfe'
          · have hppid : p = pid := List.mem_singleton.mp hpsing
            subst hppid
            exact ⟨E, hEfind, by rw [hEconv]⟩
        · by_cases hpp : p = pid
          · subst hpp
            exact absurd (hpid_only_cid cb hcb' hp) hne
          · obtain ⟨e', hfe', hce'⟩ := hWF.backward cb hcb' p hp
            refine ⟨e', ?_, hce'⟩
            rw [hfind_other p hpp]
            exact hfe'
      · intro pe hpe c hcx
        rw [hidx]
        rcases hmem_elim pe hpe with ⟨hold, _⟩ | ⟨hp1, hcv⟩
        · obtain ⟨b', hb', hpb'⟩ := hWF.forward pe hold c hcx
          by_cases hcc : c = cid
          · subst hcc
            rw [hbfind] at hb'
            cases hb'
            refine ⟨b ++ [pid], dfind_dset_self _ _ _, ?_⟩
            exact List.mem_append_left _ hpb'
          · refine ⟨b', ?_, hpb'⟩
            rw [dfind_dset_ne _ _ hcc]
            exact hb'
        · have hc : c = cid := by
            rw [hcv] at hcx
            exact (Option.some.inj hcx).symm
          subst hc
          refine ⟨b ++ [pid], dfind_dset_self _ _ _, ?_⟩
          rw [hp1]
          exact List.mem_append_right _ (List.mem_singleton.mpr rfl)
  · have hdc' : dmem st.conversation_index cid = false := by simpa using hdc
    have hnone : dfind st.conversation_index cid = none := dmem_eq_false_iff.mp hdc'
    have hcidfresh : ∀ q ∈ st.conversation_index, ¬ q.1 = cid := dfind_eq_none.mp hnone
    have hidx := store_conversation_index_new st now pid cid hdc'
    have hdm2 : dmem (st.conversation_index ++ [(cid, [])]) cid = true := by
      rw [dmem, dfind_append, hnone, dfind_singleton]
      rfl
    have hkeyset : ((dset (st.conversation_index ++ [(cid, [])]) cid [pid]).map Prod.fst)
        = (st.conversation_index ++ [(cid, [])]).map Prod.fst :=
      keys_dset_of_mem _ hdm2
    have helim : ∀ cb, cb ∈ dset (st.conversation_index ++ [(cid, [])]) cid [pid] →
        cb = (cid, [pid]) ∨ (cb ∈ st.conversation_index ∧ ¬ cb.1 = cid) := by
      intro cb hcb
      rcases mem_dset_elim hcb with hcb' | ⟨hcb', hne⟩
      · exact Or.inl hcb'
      · rcases List.mem_append.mp hcb' with h | h
        · exact Or.inr ⟨h, hne⟩
        · exact absurd (by rw [List.mem_singleton.mp h]) hne
    refine ⟨hkeys, ?_, ?_, ?_, ?_, ?_⟩
    · rw [hidx, hkeyset, List.map_append]
      refine List.Nodup.append hWF.idxNodup (by simp) ?_
      intro a ha hb'
      simp at hb'
      subst hb'
      rcases List.mem_map.mp ha with ⟨q, hq, hq1⟩
      exact hcidfresh q hq hq1
    · rw [hidx]
      intro cb hcb
      rcases helim cb hcb with hcb' | ⟨hcb', _⟩
      · rw [hcb']
        simp
      · exact hWF.bucketNe cb hcb'
    · rw [hidx]
      intro cb hcb
      rcases helim cb hcb with hcb' | ⟨hcb', _⟩
      · rw [hcb']
        simp
      · exact hWF.bucketNodup cb hcb'
    · rw [hidx]
      intro cb hcb p hp
      rcases helim cb hcb with hcb' | ⟨hcb', hne⟩
      · rw [hcb'] at hp ⊢
        have hppid : p = pid := List.mem_singleton.mp hp
        subst hppid
        exact ⟨E, hEfind, by rw [hEconv]⟩
      · by_cases hpp : p = pid
        · subst hpp
          exact absurd (hpid_only_cid cb hcb' hp) hne
        · obtain ⟨e', hfe', hce'⟩ := hWF.backward cb hcb' p hp
          refine ⟨e', ?_, hce'⟩
          rw [hfind_other p hpp]
          exact hfe'
    · intro pe hpe c hcx
      rw [hidx]
      rcases hmem_elim pe hpe with ⟨hold, _⟩ | ⟨hp1, hcv⟩
      · obtain ⟨b', hb', hpb'⟩ := hWF.forward pe hold c hcx
        have hcc : ¬ c = cid := by
          intro he
          rw [he, hnone] at hb'
          cases hb'
        refine ⟨b', ?_, hpb'⟩
        rw [dfind_dset_ne _ _ hcc, dfind_append, hb']
        rfl
      · have hc : c = cid := by
          rw [hcv] at hcx
          exact (Option.some.inj hcx).symm
        subst hc
        refine ⟨[pid], dfind_dset_self _ _ _, ?_⟩
        rw [hp1]
        exact List.mem_singleton.mpr rfl


/-- `store_conversation_id` with a non-empty conversation id keeps the store
free of empty-string conversation ids. -/
theorem store_conversation_noBlank (st : SharedMemory) (now : Nat)
    (pid cid : String) (hcid : ¬ cid = "") (hnb : noBlankCid st) :
    noBlankCid (store_conversation_id st now pid cid).2 := by
  intro pe hpe
  rw [store_conversation_memory] at hpe
  by_cases hm : dmem st.memory pid = true
  · rw [if_pos hm] at hpe
    rcases mem_dmod_elim hpe with ⟨hpe', _⟩ | ⟨v, _, hpe'⟩
    · exact hnb pe hpe'
    · rw [hpe']
      intro h
      exact hcid (Option.some.inj h)
  · rw [if_neg hm] at hpe
    rcases List.mem_append.mp hpe with h | h
    · exact hnb pe h
    · have hpee : pe = (pid,
          { processing_id := pid
            timestamp := some now
            metadata := []
            conversation_id := some cid
            agent_history := ["conversation_id_stored"] }) := by simpa using h
      rw [hpee]
      intro hx
      exact hcid (Option.some.inj hx)

/-- `clear_memory` keeps the store free of empty-string conversation ids. -/
theorem clear_noBlank (st : SharedMemory) (now : Nat) (p : String)
    (hnb : noBlankCid st) : noBlankCid (clear_memory st now p).2 :=
  fun pe hpe => hnb pe ((clear_memory_shrink st now p).subset hpe)

/-- A run of conversation-id writes and deletes that never moves a record
between conversations and never uses the empty string as a conversation id
preserves well-formedness and the absence of empty-string conversation ids. -/
theorem runConvOps_wf (now : Nat) (ops : List ConvOp) :
    ∀ st : SharedMemory, WF st → noBlankCid st → okConvOps st now ops = true →
      WF (runConvOps st now ops) ∧ noBlankCid (runConvOps st now ops) := by
  induction ops with
  | nil => exact fun st h hnb _ => ⟨h, hnb⟩
  | cons op rest ih =>
    intro st hWF hnb hok
    simp only [okConvOps, Bool.and_eq_true] at hok
    have hstep : WF (applyConvOp st now op) ∧ noBlankCid (applyConvOp st now op) := by
      cases op with
      | put pid cid =>
        have hcc : (convCompatible st pid cid && !(cid == "")) = true := hok.1
        rw [Bool.and_eq_true] at hcc
        have hcid : ¬ cid = "" := by
          have h2 := hcc.2
          simp only [Bool.not_eq_true', beq_eq_false_iff_ne, ne_eq] at h2
          exact h2
        exact ⟨wf_store_conversation st hWF now pid cid hcc.1,
          store_conversation_noBlank st now pid cid hcid hnb⟩
      | del pid =>
        have hnbp : ∀ e, dfind st.memory pid = some e →
            ¬ e.conversation_id = some "" :=
          fun e he => hnb (pid, e) (dfind_mem he)
        exact ⟨(clear_spec st hWF now pid hnbp).2.2.1, clear_noBlank st now pid hnb⟩
    exact ih (applyConvOp st now op) hstep.1 hstep.2 hok.2

/-- C2 (amended): after any sequence of `store_conversation_id` and
`clear_memory` calls on a well-formed store that never assigns a processing id
a second, different conversation id and never uses the empty string — falsy in
Python — as a conversation id, every id in every conversation bucket resolves
to a live record via `get_memory`, and no bucket is empty. -/
theorem C2_index_consistency (now : Nat) (ops : List ConvOp) (st : SharedMemory)
    (hWF : WF st) (hnb : noBlankCid st) (hok : okConvOps st now ops = true) :
    ∀ cb ∈ (runConvOps st now ops).conversation_index,
      cb.2 ≠ [] ∧ ∀ p ∈ cb.2, (get_memory (runConvOps st now ops) p).isSome = true := by
  have hWF' := (runConvOps_wf now ops st hWF hnb hok).1
  intro cb hcb
  refine ⟨hWF'.bucketNe cb hcb, ?_⟩
  intro p hp
  obtain ⟨e, he, _⟩ := hWF'.backward cb hcb p hp
  rw [get_memory, he]
  rfl

/-- C2 counterexample: assigning conversation "A" and then "B" to the same id
and deleting the record leaves the id dangling in bucket "A": the bucket
member no longer resolves via `get_memory`. -/
theorem C2_cex_dangling_bucket :
    dfind c2cexSt.conversation_index "A" = some ["p"] ∧
    get_memory c2cexSt "p" = none := by
  constructor <;> decide

/-- C3 counterexample: with `max_entries = 1` and one pre-existing record, one
successful `store_metadata` for the fresh id "new" trips capacity eviction
(buffer 100) that removes every entry — including the record just written —
so after this 1-write sequence no record with id "new" exists (instead of
exactly one with history length 1). -/
theorem C3_cex_eviction_wipes_record :
    (store_metadata (store_classification (mkSharedMemory 1 24 0) 0 "old" exCls).2
        0 "new" [("a", MVal.int 1)]).1 = true ∧
    dfind c3cexSt.memory "new" = none ∧
    c3cexSt.memory = [] := by
  refine ⟨rfl, ?_, ?_⟩ <;> decide

/-- C8 counterexample: register a record under the empty conversation id and
delete it — the delete succeeds and removes the record, but the truthiness
guard `if entry.conversation_id:` skips the index maintenance, so bucket `""`
survives unpruned and still lists the deleted id (the claim promised erasure
and pruning for every stored conversation id). -/
theorem C8_cex_blank_cid :
    (clear_memory
        (store_conversation_id (mkSharedMemory 1000 24 0) 0 "p" "").2 0 "p").1
      = true ∧
    dfind c8cexSt.memory "p" = none ∧
    dfind c8cexSt.conversation_index "" = some ["p"] := by
  refine ⟨rfl, ?_, ?_⟩ <;> decide

theorem C1_metadata_write_capacity_witness :
    (store_metadata (mkSharedMemory 1 24 0) 0 "a" []).1 = true ∧
    (store_metadata (mkSharedMemory 1 24 0) 0 "a" []).2.memory.length
      ≤ (mkSharedMemory 1 24 0).max_entries :=
  C1_metadata_write_capacity (mkSharedMemory 1 24 0) (wf_of_wfB (by decide)) 0 "a" []

theorem C2_index_consistency_witness :
    (("c1", ["p1"]) : String × List String).2 ≠ [] ∧
    (get_memory (runConvOps (mkSharedMemory 1000 24 0) 0
        [ConvOp.put "p1" "c1"]) "p1").isSome = true :=
  have h := C2_index_consistency 0 [ConvOp.put "p1" "c1"] (mkSharedMemory 1000 24 0)
    (wf_of_wfB (by decide)) (fun pe hpe => absurd hpe (List.not_mem_nil pe))
    (by decide)
  ⟨(h ("c1", ["p1"]) (by decide)).1, (h ("c1", ["p1"]) (by decide)).2 "p1" (by decide)⟩

theorem C3_unique_record_history_witness :
    ((runWrites (mkSharedMemory 1000 24 0) "p1"
        [(0, WriteOp.putMeta [("a", MVal.int 1)])]).memory.map Prod.fst
      = if ([(0, WriteOp.putMeta [("a", MVal.int 1)])] : List (Nat × WriteOp)) = []
        then [] else ["p1"]) ∧
    (∀ e, dfind (runWrites (mkSharedMemory 1000 24 0) "p1"
        [(0, WriteOp.putMeta [("a", MVal.int 1)])]).memory "p1" = some e →
      e.agent_history.length = [(0, WriteOp.putMeta [("a", MVal.int 1)])].length) ∧
    (∀ l1 l2, [(0, WriteOp.putMeta [("a", MVal.int 1)])] = l1 ++ l2 →
      ∃ tl, histOf (runWrites (mkSharedMemory 1000 24 0) "p1"
          [(0, WriteOp.putMeta [("a", MVal.int 1)])]) "p1"
        = histOf (runWrites (mkSharedMemory 1000 24 0) "p1" l1) "p1" ++ tl) :=
  C3_unique_record_history "p1" 1000 24 0 (by decide)
    [(0, WriteOp.putMeta [("a", MVal.int 1)])] (by decide)

theorem C4_metadata_merge_witness :
    get_metadata (store_metadata (store_metadata (mkSharedMemory 1000 24 0) 0 "p1"
        [("a", MVal.int 1)]).2 0 "p1" [("b", MVal.int 2)]).2 "p1"
      = some (dictUpdate [("a", MVal.int 1)] [("b", MVal.int 2)]) ∧
    (∀ k v, dfind [("b", MVal.int 2)] k = some v →
      dfind (dictUpdate [("a", MVal.int 1)] [("b", MVal.int 2)]) k = some v) ∧
    (∀ k, dfind [("b", MVal.int 2)] k = none →
      dfind (dictUpdate [("a", MVal.int 1)] [("b", MVal.int 2)]) k
        = dfind [("a", MVal.int 1)] k) :=
  C4_metadata_merge (mkSharedMemory 1000 24 0) "p1" [("a", MVal.int 1)]
    [("b", MVal.int 2)] 0 0 (by decide) (by decide) (by decide) (by decide) (by decide)

theorem C5_age_sweep_witness :
    (∀ pe ∈ c5St.memory, ∀ t, pe.2.timestamp = some t →
        t + c5St.cleanup_hours < 10 →
        dfind (cleanupExpiredEntries c5St 10).memory pe.1 = none) ∧
    (∀ pe ∈ c5St.memory, pe.2.timestamp = none →
        dfind (cleanupExpiredEntries c5St 10).memory pe.1 = none) ∧
    (cleanupExpiredEntries c5St 10).stats_last_cleanup = 10 :=
  C5_age_sweep c5St (wf_of_wfB (by decide)) 10

theorem C6_evicts_oldest_witness :
    (cleanupOldEntries overCapSt 3).memory.length = overCapSt.max_entries - 100 ∧
    (∀ pe ∈ (cleanupOldEntries overCapSt 3).memory, pe ∈ overCapSt.memory) ∧
    (∀ pe ∈ (cleanupOldEntries overCapSt 3).memory, ∀ qe ∈ overCapSt.memory,
        dfind (cleanupOldEntries overCapSt 3).memory qe.1 = none →
        ∀ tq tp, qe.2.timestamp = some tq → pe.2.timestamp = some tp → tq ≤ tp) :=
  C6_evicts_oldest overCapSt (wf_of_wfB (by decide)) 3 (by decide)

theorem C8_delete_semantics_witness :
    (dfind c5St.memory "a" = none → clear_memory c5St 1 "a" = (false, c5St)) ∧
    (∀ e, dfind c5St.memory "a" = some e →
      (clear_memory c5St 1 "a").1 = true ∧
      dfind (clear_memory c5St 1 "a").2.memory "a" = none ∧
      (∀ cid, e.conversation_id = some cid → ¬ cid = "" →
        dfind (clear_memory c5St 1 "a").2.conversation_index cid =
          (if ((dfind c5St.conversation_index cid).getD []).erase "a" = []
           then none
           else some (((dfind c5St.conversation_index cid).getD []).erase "a"))) ∧
      (e.conversation_id = none ∨ e.conversation_id = some "" →
        (clear_memory c5St 1 "a").2.conversation_index = c5St.conversation_index)) :=
  C8_delete_semantics c5St (wf_of_wfB (by decide)) 1 "a"

theorem C9_eviction_buffer_witness :
    (cleanupOldEntries overCapSt 3).memory.length = overCapSt.max_entries - 100 ∧
    overCapSt.memory.length - (cleanupOldEntries overCapSt 3).memory.length
      = min (overCapSt.memory.length - overCapSt.max_entries + 100)
          overCapSt.memory.length ∧
    (overCapSt.max_entries ≤ 100 → (cleanupOldEntries overCapSt 3).memory = []) :=
  C9_eviction_buffer overCapSt (wf_of_wfB (by decide)) 3 (by decide)

end SharedMem
